import Mathlib

/-!
# Verification of the nth-prime sieve family (`sieve.js`)

Shallow embedding of the four sieve strategies of `src/javascript/Sieve/sieve.js`
and proofs about them.

## Modelling conventions

* JavaScript numbers used as integers are modelled as `Nat`/`Int`.  All the
  integer arithmetic performed by the source stays far below `2^53`, where
  IEEE-754 doubles are exact, so this is faithful.

* The packed bit buffer of `optimizedSieve2` (`sieve[j >> 5] |= 1 << (j & 31)` on
  an array of 32-bit words) is modelled as a single natural number used as a
  bitset: bit `32*k + r` of the number is bit `r` of word `k`.  Then
  `sieve[j >> 5] |= 1 << (j & 31)` is exactly `sieve ||| (1 <<< j)` and reading
  word `k` is `(sieve >>> (32*k)) &&& 0xFFFFFFFF` (`wordAt`).  JavaScript's
  `new Array(dim)` creates holes which read as `undefined`; every read the
  source performs pipes the word through a bitwise operator, and
  `ToInt32(undefined) = 0`, so the freshly allocated buffer is the number `0`,
  and out-of-range reads also give `0`.  Writing past `dim` (which the source
  does for some inputs) auto-extends a JavaScript array; the bitset model has
  the same behaviour.

* The wheel rescaling (`limit = 2*(limit/6) - 1` etc.) divides by 6 with
  JavaScript float division, producing non-integer results.  We model these
  values in `ℚ`.  The true doubles differ from the exact rationals by a
  relative error below `2^-50`; since every produced value has fractional part
  `0`, `1/3` or `2/3`, and the values are only ever compared against integers
  (`i < root`, `j < limit`) or truncated (`ToInt32` in `(limit+31) >> 5`),
  a sub-ulp perturbation can never change any comparison or truncation, so the
  rational model computes exactly what the JavaScript code computes.

* `Math.floor(Math.sqrt(m))` for an integer double `m` equals `Nat.sqrt m`:
  IEEE square root is correctly rounded, and for `m < 2^52` the distance from
  `√m` to the nearest integer above it is at least `1/(2√m+1) ≫ ulp`, so the
  rounding never crosses an integer.

* The transcendental expression `E(n) = n*(Math.log(n)+Math.log(Math.log(n)))+3`
  (IEEE doubles) cannot be embedded exactly for unbounded `n`.  At each concrete
  query point used below its double value is pinned in `eFor` as an exact
  decimal rational; each pinned value sits at distance `≥ 0.10` from the nearest
  integer (checked against high-precision logarithms), so `Math.floor`/`Math.ceil`
  of the true double provably agree with `⌊·⌋`/`⌈·⌉` of the pinned rational for
  any faithfully-rounded `Math.log` (error `< 10^-9` suffices).

* Loops are embedded as structural recursion on an explicit fuel argument; at
  every call site the fuel supplied is proved (or immediately checkable) to be
  large enough that the fuel-exhaustion branch is unreachable.
-/

namespace SieveJS

/-- The SWAR population count of `sieve.js` lines 138–143, on the unsigned view
of a 32-bit word (`num < 2^32`).  Line 139's `num -= (num >>> 1) & 0x55555555`
never underflows; line 141 uses signed `>> 4` on a value `< 2^31`, and line
142's `(num * 0x01010101) >> 24` multiplies exactly in doubles, wraps to 32 bits
(`ToInt32`) with a clear sign bit — all three coincide with the `Nat`
operations used here. -/
def popCount (num : Nat) : Nat :=
  let a := num - ((num >>> 1) &&& 0x55555555)
  let b := ((a >>> 2) &&& 0x33333333) + (a &&& 0x33333333)
  let c := ((b >>> 4) &&& 0x0F0F0F0F) + (b &&& 0x0F0F0F0F)
  ((c * 0x01010101) % 4294967296) >>> 24

/-- Word `k` of the packed bit buffer: `sieve[k]` coerced to `UInt32`. -/
def wordAt (sieve k : Nat) : Nat := (sieve >>> (32 * k)) &&& 0xFFFFFFFF

/-- `~w` on a 32-bit word (unsigned view), for `w < 2^32`. -/
def compl32 (w : Nat) : Nat := 0xFFFFFFFF ^^^ w

/-- The wheel rescaling switch of `sieve.js` lines 154–173, applied to `limit`
and `root`.  The division by 6 is JavaScript float division, modelled exactly
in `ℚ` (see the file header). -/
def rescale (v : Nat) : ℚ :=
  match v % 6 with
  | 0 => 2 * ((v : ℚ) / 6) - 1
  | 5 => 2 * ((v : ℚ) / 6) + 1
  | _ => 2 * ((v : ℚ) / 6)

/-- Number of naturals `i` with `(i : ℚ) < x`; used to translate
`for (i = 0; i < x; i++)` loops whose bound `x` is a (possibly fractional)
rational.  `lt_qCeilNat` below proves the translation exact. -/
def qCeilNat (x : ℚ) : Nat := (⌈x⌉).toNat

/-- The integer value represented by wheel bit position `g`:
`5, 7, 11, 13, 17, 19, 23, 25, 29, …` — `3g+5` for even `g`, `3g+4` for odd
`g`.  (Derived: this is the enumeration under which the marking formulas of
lines 179–187 land exactly on composites; see `c8_marking_exact`.) -/
def wheelValue (g : Nat) : Nat := 3 * g + 5 - g % 2

/-- Wheel index of a value `v ≥ 5` with `v % 6 ∈ {1, 5}` (inverse of
`wheelValue`). -/
def wheelIdx (v : Nat) : Nat := if v % 6 = 5 then 2 * (v / 6) else 2 * (v / 6) - 1

/-- The rescaling formula as the *spec* states it (§4.4 step 2):
`index = 2⌊v/6⌋ + δ`, `δ = −1` for `v ≡ 0`, `+1` for `v ≡ 5`, else `0`.
Stated from the spec's words for comparison with the code's `rescale`. -/
def specRescaleIdx (v : Nat) : ℤ :=
  2 * (v / 6 : Nat) + (if v % 6 = 0 then -1 else if v % 6 = 5 then 1 else 0)

/-- First stride of the marking loop (lines 179–187): `4i+5` for odd `i`,
`2i+3` for even `i`. -/
def s1Of (i : Nat) : Nat := if i % 2 = 1 then 4 * i + 5 else 2 * i + 3

/-- Second stride of the marking loop: `2i+3` for odd `i`, `4i+7` for even `i`. -/
def s2Of (i : Nat) : Nat := if i % 2 = 1 then 2 * i + 3 else 4 * i + 7

/-- Starting offset of the marking loop: `i(3i+8)+4` for odd `i`,
`i(3i+10)+7` for even `i`. -/
def startOf (i : Nat) : Nat := if i % 2 = 1 then i * (3 * i + 8) + 4 else i * (3 * i + 10) + 7

/-- The positions visited by the inner marking loop: `start`, `start+s1`,
`start+s1+s2`, … alternating the two strides. -/
def strideSeq (start s1 s2 : Nat) : Nat → Nat
  | 0 => start
  | u + 1 => strideSeq start s1 s2 u + (if u % 2 = 0 then s1 else s2)

/-- The inner marking loop of `sieve.js` lines 188–193:
`for (j = start; j < limit; j += s2) { mark j; j += s1; if (j >= limit) break; mark j; }`.
Each recursion step handles one `for` iteration (up to two marks); the fuel
passed at the call sites is provably sufficient. -/
def markFrom (limitQ : ℚ) (s1 s2 : Nat) : Nat → Nat → Nat → Nat
  | 0, _, sieve => sieve
  | fuel + 1, j, sieve =>
    if (j : ℚ) < limitQ then
      let sieve1 := sieve ||| (1 <<< j)
      let j1 := j + s1
      if (j1 : ℚ) < limitQ then
        markFrom limitQ s1 s2 fuel (j1 + s2) (sieve1 ||| (1 <<< j1))
      else sieve1
    else sieve

/-- Body of the outer marking loop (lines 176–195): if bit `i` is unset
(`(sieve[i >> 5] & (1 << (i & 31))) === 0`), run the inner marking loop with the
parity-dependent parameters. -/
def markStep (limitQ : ℚ) (sieve : Nat) (i : Nat) : Nat :=
  if wordAt sieve (i >>> 5) &&& (1 <<< (i &&& 31)) = 0 then
    markFrom limitQ (s1Of i) (s2Of i) (qCeilNat limitQ + 1) (startOf i) sieve
  else sieve

/-- The whole marking phase: `for (i = 0; i < root; i++) …` over the zero
buffer.  `i` ranges over the naturals below the (rational) `root`, i.e. over
`List.range (qCeilNat rootQ)` (exactness: `lt_qCeilNat`). -/
def markPhase (rootQ limitQ : ℚ) : Nat :=
  (List.range (qCeilNat rootQ)).foldl (markStep limitQ) 0

/-- The word-scanning count loop (lines 197–199):
`for (k = 0; count < n+1; k++) count += popCount(~sieve[k]);`
Returns the exit values of `k` and `count`; `none` on fuel exhaustion
(proved unreachable for the fuel used in `optimizedSieve2From`). -/
def countWords (sieve target : Nat) : Nat → Nat → Nat → Option (Nat × Nat)
  | 0, k, count => if target ≤ count then some (k, count) else none
  | fuel + 1, k, count =>
    if target ≤ count then some (k, count)
    else countWords sieve target fuel (k + 1) (count + popCount (compl32 (wordAt sieve k)))

/-- The final bit scan (lines 203–205):
`for (p = 31; count >= n+1; p--) count -= (mask >> p) & 1;`
`p` is an `Int` (it can end at `-1`); a JavaScript shift count is taken mod 32
(`ToUint32(p) & 31`), hence the `p % 32`. -/
def bitScan (mask target : Nat) : Nat → Int → Nat → Int × Nat
  | 0, p, count => (p, count)
  | fuel + 1, p, count =>
    if target ≤ count then
      bitScan mask target fuel (p - 1)
        (count - (if mask.testBit ((p % 32).toNat) then 1 else 0))
    else (p, count)

/-- Line 206: `return 3*(p+(k<<5))+7+(p&1);` (`p & 1` on a possibly negative
`Int32` is `p % 2` with the nonnegative remainder). -/
def recoverValue (p : Int) (k : Nat) : Int := 3 * (p + 32 * (k : Int)) + 7 + p % 2

/-- The wheel-space `limit` of `optimizedSieve2` (after the switch). -/
def os2Limit (limit0 : Nat) : ℚ := rescale limit0

/-- The wheel-space `root` of `optimizedSieve2`:
`root = Math.floor(Math.sqrt(limit))` (line 153) then the switch. -/
def os2Root (limit0 : Nat) : ℚ := rescale (Nat.sqrt limit0)

/-- `dim = (limit + 31) >> 5` (line 174): `ToInt32` truncates the fractional
wheel `limit`, then shifts. -/
def os2Dim (limit0 : Nat) : Nat := (⌊rescale limit0⌋ + 31).toNat / 32

/-- The fully marked bit buffer of `optimizedSieve2` for integer bound
`limit0`. -/
def os2Sieve (limit0 : Nat) : Nat := markPhase (os2Root limit0) (os2Limit limit0)

/-- `optimizedSieve2` (lines 137–207), parametrised by the integer bound
`limit0 = Math.floor(n*(Math.log(n)+Math.log(Math.log(n)))+3)` (line 152),
whose transcendental value is supplied per query point by `eFor`. -/
def optimizedSieve2From (n limit0 : Nat) : Int :=
  if n = 0 then 2 else if n = 1 then 3 else if n = 2 then 5
  else
    let sieve := os2Sieve limit0
    match countWords sieve (n + 1) (os2Dim limit0 + n + 2) 0 2 with
    | none => 0
    | some (k1, count) =>
      let k := k1 - 1
      let mask := compl32 (wordAt sieve k)
      let pc := bitScan mask (n + 1) 33 31 count
      recoverValue pc.1 k

/-- The IEEE-754 double value of `n*(Math.log(n)+Math.log(Math.log(n)))+3` at
the concrete query points used in this development, written as exact decimal
rationals.  Each shown value agrees with the true double to within `5·10^-16`
and sits at distance `≥ 0.10` from the nearest integer, so the floors and
ceilings taken below are robust to any faithful `Math.log` (see file header).
Unlisted points are never used. -/
def eFor (n : Nat) : ℚ :=
  if n = 3 then 6.577980348854426
  else if n = 4 then 9.851714484392687
  else if n = 8 then 25.492327278130247
  else if n = 10 then 34.36617538242002
  else if n = 12 then 43.741700917839914
  else if n = 22 then 95.83011872024143
  else if n = 39 then 196.51790046105165
  else if n = 99 then 608.8913541446668
  else if n = 500 then 4023.7553820114617
  else if n = 1000 then 8843.400012898202
  else if n = 10000 then 114309.67178344031
  else 0

/-- `limit = Math.floor(E(n))` of `optimizedSieve2` line 152 at the pinned
query points. -/
def limit0For (n : Nat) : Nat := (⌊eFor n⌋).toNat

/-- `optimizedSieve2(n)` at the pinned query points. -/
def optimizedSieve2 (n : Nat) : Int := optimizedSieve2From n (limit0For n)

/-- `NthPrime` (lines 214–219): delegates to `optimizedSieve2`. -/
def NthPrime (n : Nat) : Int := optimizedSieve2 n

/-! ### Integer twins of the rational-valued wheel bounds

The only uses `optimizedSieve2` makes of the fractional wheel values are the
comparisons `i < root`, `j < limit` against loop counters and the truncation
in `dim = (limit+31) >> 5`.  The following integer-valued functions compute
those effective bounds directly; `coe_lt_rescale`, `floor_rescale` and
`optimizedSieve2From_eq_pure` prove them equal to the rational model, and the
concrete evaluations below run on the pure-`Nat` twin. -/

/-- Fuel-based twin of `Nat.sqrt.iter` (the core definition is well-founded
recursion, which does not reduce in the kernel). -/
def sqrtIterN (n : Nat) : Nat → Nat → Nat
  | 0, guess => guess
  | fuel + 1, guess =>
    let next := (guess + n / guess) / 2
    if next < guess then sqrtIterN n fuel next else guess

/-- Kernel-computable twin of `Nat.sqrt` (`sqrtN_eq` proves them equal). -/
def sqrtN (n : Nat) : Nat := if n ≤ 1 then n else sqrtIterN n (n / 2) (n / 2)

/-- Effective exclusive integer bound of `rescale v`: the number of naturals
`j` with `(j : ℚ) < rescale v`. -/
def rescaleBound (v : Nat) : Nat :=
  if v % 6 = 0 then (v - 1) / 3 else if v % 6 = 5 then (v + 5) / 3 else (v + 2) / 3

/-- `⌊rescale v⌋` as a direct integer formula. -/
def rescaleFloor (v : Nat) : Int :=
  2 * (v / 6 : Nat) +
    (if v % 6 = 0 then -1 else if v % 6 ≤ 2 then 0 else if v % 6 ≤ 4 then 1 else 2)

/-- Pure-`Nat` twin of `markFrom` (bound `B = rescaleBound limit0`). -/
def markFromN (B s1 s2 : Nat) : Nat → Nat → Nat → Nat
  | 0, _, sieve => sieve
  | fuel + 1, j, sieve =>
    if j < B then
      let sieve1 := sieve ||| (1 <<< j)
      let j1 := j + s1
      if j1 < B then
        markFromN B s1 s2 fuel (j1 + s2) (sieve1 ||| (1 <<< j1))
      else sieve1
    else sieve

/-- Pure-`Nat` twin of `markStep`. -/
def markStepN (B : Nat) (sieve : Nat) (i : Nat) : Nat :=
  if wordAt sieve (i >>> 5) &&& (1 <<< (i &&& 31)) = 0 then
    markFromN B (s1Of i) (s2Of i) (B + 1) (startOf i) sieve
  else sieve

/-- Pure-`Nat` twin of `markPhase`. -/
def markPhaseN (rootB B : Nat) : Nat :=
  (List.range rootB).foldl (markStepN B) 0

/-- Pure-`Nat` twin of `os2Dim`. -/
def os2DimN (limit0 : Nat) : Nat := (rescaleFloor limit0 + 31).toNat / 32

/-- Pure-`Nat` twin of `os2Sieve`. -/
def os2SieveN (limit0 : Nat) : Nat :=
  markPhaseN (rescaleBound (sqrtN limit0)) (rescaleBound limit0)

/-- Pure-`Nat` twin of `optimizedSieve2From`. -/
def optimizedSieve2Pure (n limit0 : Nat) : Int :=
  if n = 0 then 2 else if n = 1 then 3 else if n = 2 then 5
  else
    let sieve := os2SieveN limit0
    match countWords sieve (n + 1) (os2DimN limit0 + n + 2) 0 2 with
    | none => 0
    | some (k1, count) =>
      let k := k1 - 1
      let mask := compl32 (wordAt sieve k)
      let pc := bitScan mask (n + 1) 33 31 count
      recoverValue pc.1 k

/-! ### Chunked evaluation layer

Kernel reduction of a structural recursion builds a stack proportional to the
number of iterations, which overflows beyond a few thousand steps.  The
following runners execute the same loops in chunks of 256 iterations, forcing
the accumulated state to a literal at every chunk boundary; the
`…_eq` theorems below prove them equal to the plain twins, so the concrete
evaluations of `optimizedSieve2` can be checked by the kernel. -/

/-- One chunk (at most `fuel` iterations) of `markFromN`, returning the resume
state `(j, sieve)`. -/
def markChunk (B s1 s2 : Nat) : Nat → Nat × Nat → Nat × Nat
  | 0, js => js
  | fuel + 1, (j, sieve) =>
    if j < B then
      let sieve1 := sieve ||| (1 <<< j)
      let j1 := j + s1
      if j1 < B then markChunk B s1 s2 fuel (j1 + s2, sieve1 ||| (1 <<< j1))
      else (j1, sieve1)
    else (j, sieve)

/-- `F` chunks of 256 iterations of `markFromN`.  The `js'.2 = 0` test forces
the chunk's buffer to a literal; it never holds (the chunk has just set bit
`j`), as `markFromN_multi` proves. -/
def markMulti (B s1 s2 : Nat) : Nat → Nat × Nat → Nat × Nat
  | 0, js => js
  | F + 1, (j, sieve) =>
    if j < B then
      let js' := markChunk B s1 s2 256 (j, sieve)
      if js'.2 = 0 then js' else markMulti B s1 s2 F js'
    else (j, sieve)

/-- Chunked equivalent of `markFromN B s1 s2 (B+1) j sieve`. -/
def markFromE (B s1 s2 j sieve : Nat) : Nat :=
  let js := markMulti B s1 s2 (B / 512 + 1) (j, sieve)
  markFromN B s1 s2 (B + 1) js.1 js.2

/-- Chunked equivalent of `markStepN`. -/
def markStepE (B : Nat) (sieve : Nat) (i : Nat) : Nat :=
  if wordAt sieve (i >>> 5) &&& (1 <<< (i &&& 31)) = 0 then
    markFromE B (s1Of i) (s2Of i) (startOf i) sieve
  else sieve

/-- Chunked equivalent of `markPhaseN`. -/
def markPhaseE (rootB B : Nat) : Nat :=
  (List.range rootB).foldl (markStepE B) 0

/-- One chunk (at most `fuel` iterations) of the word-count loop, returning
the resume state `(k, count)`. -/
def countChunk (sieve target : Nat) : Nat → Nat × Nat → Nat × Nat
  | 0, kc => kc
  | fuel + 1, (k, count) =>
    if target ≤ count then (k, count)
    else countChunk sieve target fuel (k + 1, count + popCount (compl32 (wordAt sieve k)))

/-- `F` chunks of 256 iterations of the word-count loop; the
`kc'.1 + kc'.2 = 0` test forces the state and never holds for a positive
running count (`countWords_multi`). -/
def countMulti (sieve target : Nat) : Nat → Nat × Nat → Nat × Nat
  | 0, kc => kc
  | F + 1, (k, count) =>
    if target ≤ count then (k, count)
    else
      let kc' := countChunk sieve target 256 (k, count)
      if kc'.1 + kc'.2 = 0 then kc' else countMulti sieve target F kc'

/-- Chunked equivalent of `optimizedSieve2Pure` (theorem
`optimizedSieve2Eval_eq`); all concrete evaluations use this form. -/
def optimizedSieve2Eval (n limit0 : Nat) : Int :=
  if n = 0 then 2 else if n = 1 then 3 else if n = 2 then 5
  else
    let B := rescaleBound limit0
    let sieve := markPhaseE (rescaleBound (sqrtN limit0)) B
    let fuel := os2DimN limit0 + n + 2
    let kc := countMulti sieve (n + 1) (fuel / 256) (0, 2)
    match countWords sieve (n + 1) (fuel % 256) kc.1 kc.2 with
    | none => 0
    | some (k1, count) =>
      let k := k1 - 1
      let mask := compl32 (wordAt sieve k)
      let pc := bitScan mask (n + 1) 33 31 count
      recoverValue pc.1 k

/-- `upperBound = Math.ceil(E(n))` of `sieveOfEratosthenes` line 19 /
`segmentedSieve` line 54. -/
def upperBoundOf (e : ℚ) : Nat := (⌈e⌉).toNat

/-- Inner marking loop of `sieveOfEratosthenes` (lines 28–30):
`for (j = i*i; j < len; j += i) integers[j] = false;`
The boolean buffer is modelled as a function `Nat → Bool` (reads past the end,
which the source never performs here, are irrelevant). -/
def markMultiples (len i : Nat) : Nat → Nat → (Nat → Bool) → (Nat → Bool)
  | 0, _, buf => buf
  | fuel + 1, j, buf =>
    if j < len then
      markMultiples len i fuel (j + i) (fun x => if x = j then false else buf x)
    else buf

/-- Body of the outer loop of `sieveOfEratosthenes` (lines 26–32). -/
def eratosStep (len : Nat) (buf : Nat → Bool) (i : Nat) : Nat → Bool :=
  if buf i then markMultiples len i len (i * i) buf else buf

/-- The marked buffer of `sieveOfEratosthenes`: `new Array(len).fill(true)`,
then the outer loop for `i = 2 … len-1`. -/
def eratosBuf (len : Nat) : Nat → Bool :=
  (List.range' 2 (len - 2)).foldl (eratosStep len) (fun _ => true)

/-- `sieveOfEratosthenes` (lines 7–43) with the integer `upperBound` already
taken; the collection loop (lines 36–40) gathers the surviving `k ∈ [2, len)`
in ascending order. -/
def sieveOfEratosthenesUB (n ub : Nat) : List Nat :=
  if n = 0 then [2] else if n = 1 then [2, 3] else if n = 2 then [2, 3, 5]
  else
    let buf := eratosBuf (ub + 1)
    (List.range (ub + 1)).filter (fun k => decide (2 ≤ k) && buf k)

/-- `sieveOfEratosthenes`, parametrised by the double `e = E(n)` to which
line 19 applies `Math.ceil` (the bound is computed after the `n < 3` early
returns, which ignore it, so the composition is exact). -/
def sieveOfEratosthenesE (n : Nat) (e : ℚ) : List Nat :=
  sieveOfEratosthenesUB n (upperBoundOf e)

/-- Per-prime marking loop of `segmentedSieve` (lines 79–81):
`for (j = lowest; j < top; j += p) integers[j - bottom] = false;`. -/
def segMarkP (top bottom p : Nat) : Nat → Nat → (Nat → Bool) → (Nat → Bool)
  | 0, _, buf => buf
  | fuel + 1, j, buf =>
    if j < top then
      segMarkP top bottom p fuel (j + p) (fun x => if x = j - bottom then false else buf x)
    else buf

/-- One window's marking (lines 68–82): fresh all-true buffer, then for each
seed prime `p`, mark the multiples of `p` in `[bottom, top)` at offset
`j - bottom`.  `lowest = Math.floor(bottom/p)*p` is exact `Nat` division (the
double division is correctly rounded and `bottom < 2^48`, so the floor never
flips — see file header). -/
def segWindow (bottom top : Nat) (primes : List Nat) : Nat → Bool :=
  primes.foldl
    (fun buf p =>
      let lowest0 := bottom / p * p
      let lowest := if lowest0 < bottom then lowest0 + p else lowest0
      segMarkP top bottom p (top + 1) lowest buf)
    (fun _ => true)

/-- The window loop of `segmentedSieve` (lines 64–90): clamp `top` to the
bound, mark, collect survivors of `[bottom, top)`, advance both cursors by
`segmentSize`. -/
def segLoop (ub seg : Nat) : Nat → Nat → Nat → List Nat → List Nat
  | 0, _, _, primes => primes
  | fuel + 1, bottom, top, primes =>
    if bottom < ub then
      let top' := if ub ≤ top then ub else top
      let buf := segWindow bottom top' primes
      let primes' := primes ++ (List.range' bottom (top' - bottom)).filter (fun k => buf (k - bottom))
      segLoop ub seg fuel (bottom + seg) (top' + seg) primes'
    else primes

/-- `segmentedSieve` (lines 50–92) with both integer upper bounds already
taken: `ub` for the query itself, `ubSeed` for the inner
`sieveOfEratosthenes(segmentSize)` call of line 57 (which passes
`segmentSize` as the *rank* argument). -/
def segmentedSieveUB (n ub ubSeed : Nat) : List Nat :=
  if n = 0 then [2] else if n = 1 then [2, 3] else if n = 2 then [2, 3, 5]
  else
    let seg := Nat.sqrt ub + 1
    let primes := sieveOfEratosthenesUB seg ubSeed
    segLoop ub seg (ub + 1) seg (seg * 2) primes

/-- `segmentedSieve`, parametrised by its own double `e = E(n)` and the double
`eSeed = E(segmentSize)` of the inner full-sieve call. -/
def segmentedSieveE (n : Nat) (e eSeed : ℚ) : List Nat :=
  segmentedSieveUB n (upperBoundOf e) (upperBoundOf eSeed)

/-- Composite-marking loop of `optimizedSieve` (lines 117–119); this variant
marks composites `true` over an all-`false` buffer. -/
def osMark (limit p : Nat) : Nat → Nat → (Nat → Bool) → (Nat → Bool)
  | 0, _, s => s
  | fuel + 1, j, s =>
    if j < limit then
      osMark limit p fuel (j + p) (fun x => if x = j then true else s x)
    else s

/-- Final scan of `optimizedSieve` (lines 122–126):
`for (p = Math.ceil(root); count < n+1; p++) if (!sieve[p]) count++;`
reads past the buffer are `undefined`, which is falsy, matching the default
`false` of the function model. -/
def osScan (sieve : Nat → Bool) (target : Nat) : Nat → Nat → Nat → Nat
  | 0, p, _ => p
  | fuel + 1, p, count =>
    if count < target then
      osScan sieve target fuel (p + 1) (count + (if sieve p then 0 else 1))
    else p

/-- `optimizedSieve` (lines 100–128), parametrised by the double `e = E(n)`
(line 108 applies `Math.floor` to it).  `root = root/2 - 1` (line 111) is
float division, modelled in `ℚ`. -/
def optimizedSieveE (n : Nat) (e : ℚ) : Nat :=
  if n = 0 then 2 else if n = 1 then 3 else if n = 2 then 5
  else
    let limit0 := (⌊e⌋).toNat
    let root1 := Nat.sqrt limit0 + 1
    let limit := (limit0 - 1) / 2
    let rootQ : ℚ := (root1 : ℚ) / 2 - 1
    let sc :=
      (List.range (qCeilNat rootQ)).foldl
        (fun sc i =>
          if sc.1 i then sc
          else (osMark limit (2 * i + 3) limit (2 * i * (i + 3) + 3) sc.1, sc.2 + 1))
        ((fun _ => false), 1)
    let p := osScan sc.1 (n + 1) (limit + n + 2) (qCeilNat rootQ) sc.2
    2 * p + 1

/-!
## Theorems

First the bridge between the rational-valued wheel bounds and their integer
twins, then the claim theorems.
-/

set_option maxRecDepth 1000000

/-- The fuel-based square-root iteration equals the core one once the fuel
dominates the (strictly decreasing) guess. -/
theorem sqrtIterN_eq (n : Nat) :
    ∀ fuel guess, guess ≤ fuel → sqrtIterN n fuel guess = Nat.sqrt.iter n guess
  | 0, guess, h => by
    have hg : guess = 0 := by omega
    subst hg
    rw [Nat.sqrt.iter]
    simp [sqrtIterN]
  | fuel + 1, guess, h => by
    rw [Nat.sqrt.iter]
    show (if (guess + n / guess) / 2 < guess then
        sqrtIterN n fuel ((guess + n / guess) / 2) else guess) = _
    by_cases hc : (guess + n / guess) / 2 < guess
    · rw [if_pos hc, dif_pos hc]
      exact sqrtIterN_eq n fuel _ (by omega)
    · rw [if_neg hc, dif_neg hc]

/-- The kernel-computable square root equals `Nat.sqrt`. -/
theorem sqrtN_eq (n : Nat) : sqrtN n = Nat.sqrt n := by
  unfold sqrtN Nat.sqrt
  split
  · rfl
  · exact sqrtIterN_eq n (n / 2) (n / 2) le_rfl

/-- Counting below a rational ceiling: `j < ⌈x⌉.toNat ↔ (j : ℚ) < x`. -/
theorem lt_qCeilNat (j : Nat) (x : ℚ) : j < qCeilNat x ↔ (j : ℚ) < x := by
  unfold qCeilNat
  rw [Int.lt_toNat, Int.lt_ceil]
  exact_mod_cast Iff.rfl

/-- Rational comparison against `v/3 + c` is an integer comparison. -/
theorem coe_lt_div3 (j v : Nat) (c : ℤ) :
    ((j : ℚ) < (v : ℚ) / 3 + (c : ℚ)) ↔ 3 * (j : ℤ) < (v : ℤ) + 3 * c := by
  rw [div_add' _ _ _ (by norm_num : (3 : ℚ) ≠ 0),
    lt_div_iff₀ (by norm_num : (0 : ℚ) < 3)]
  constructor
  · intro h
    have h' : ((j : ℤ) * 3 : ℚ) < (((v : ℤ) + (c : ℤ) * 3 : ℤ) : ℚ) := by push_cast; linarith
    have h2 : (j : ℤ) * 3 < (v : ℤ) + (c : ℤ) * 3 := by exact_mod_cast h'
    linarith
  · intro h
    have h2 : (j : ℤ) * 3 < (v : ℤ) + (c : ℤ) * 3 := by linarith
    have h' : ((j : ℤ) * 3 : ℚ) < (((v : ℤ) + (c : ℤ) * 3 : ℤ) : ℚ) := by exact_mod_cast h2
    push_cast at h'
    linarith

/-- The switch value as a single closed form: `rescale v = v/3 + δ` with
`δ = -1, +1, 0` for `v % 6 = 0`, `= 5`, otherwise. -/
theorem rescale_eq_div3 (v : Nat) :
    rescale v = (v : ℚ) / 3 +
      ((if v % 6 = 0 then -1 else if v % 6 = 5 then 1 else 0 : ℤ) : ℚ) := by
  unfold rescale
  have h6 : v % 6 = 0 ∨ v % 6 = 1 ∨ v % 6 = 2 ∨ v % 6 = 3 ∨ v % 6 = 4 ∨ v % 6 = 5 := by omega
  rcases h6 with h | h | h | h | h | h <;> rw [h] <;> norm_num <;> ring

/-- The effective integer bound of the rational wheel comparison. -/
theorem coe_lt_rescale (j v : Nat) : ((j : ℚ) < rescale v) ↔ j < rescaleBound v := by
  rw [rescale_eq_div3, coe_lt_div3]
  unfold rescaleBound
  have h6 : v % 6 = 0 ∨ v % 6 = 1 ∨ v % 6 = 2 ∨ v % 6 = 3 ∨ v % 6 = 4 ∨ v % 6 = 5 := by omega
  rcases h6 with h | h | h | h | h | h <;> simp only [h] <;> norm_num <;> omega

/-- The integer floor of the rational wheel limit. -/
theorem floor_rescale (v : Nat) : ⌊rescale v⌋ = rescaleFloor v := by
  rw [rescale_eq_div3, Int.floor_add_int,
    show ((v : ℚ) / 3) = ((v : ℤ) : ℚ) / ((3 : ℕ) : ℚ) by push_cast; ring,
    Rat.floor_intCast_div_natCast]
  unfold rescaleFloor
  have h6 : v % 6 = 0 ∨ v % 6 = 1 ∨ v % 6 = 2 ∨ v % 6 = 3 ∨ v % 6 = 4 ∨ v % 6 = 5 := by omega
  rcases h6 with h | h | h | h | h | h <;> simp only [h] <;> norm_num <;> omega

/-- `qCeilNat` of the rational wheel bound is the integer twin. -/
theorem qCeilNat_rescale (v : Nat) : qCeilNat (rescale v) = rescaleBound v := by
  have h : ∀ j : Nat, j < qCeilNat (rescale v) ↔ j < rescaleBound v := fun j =>
    (lt_qCeilNat j _).trans (coe_lt_rescale j v)
  have h1 := h (qCeilNat (rescale v))
  have h2 := h (rescaleBound v)
  omega

/-- The rational and integer marking loops agree. -/
theorem markFrom_eq (v s1 s2 : Nat) :
    ∀ (fuel j sieve : Nat),
      markFrom (rescale v) s1 s2 fuel j sieve = markFromN (rescaleBound v) s1 s2 fuel j sieve
  | 0, _, _ => rfl
  | fuel + 1, j, sieve => by
    unfold markFrom markFromN
    simp only [coe_lt_rescale]
    split
    · split
      · exact markFrom_eq v s1 s2 fuel _ _
      · rfl
    · rfl

/-- The rational and integer per-index marking steps agree. -/
theorem markStep_eq (v : Nat) (sieve i : Nat) :
    markStep (rescale v) sieve i = markStepN (rescaleBound v) sieve i := by
  unfold markStep markStepN
  rw [qCeilNat_rescale, markFrom_eq]

/-- The rational and integer marking phases agree. -/
theorem markPhase_eq (rv v : Nat) :
    markPhase (rescale rv) (rescale v) = markPhaseN (rescaleBound rv) (rescaleBound v) := by
  unfold markPhase markPhaseN
  rw [qCeilNat_rescale]
  congr 1
  funext sieve i
  exact markStep_eq v sieve i

/-- The marked buffer computed by `optimizedSieve2` equals its integer twin. -/
theorem os2Sieve_eq (limit0 : Nat) : os2Sieve limit0 = os2SieveN limit0 := by
  unfold os2Sieve os2SieveN os2Root os2Limit
  rw [markPhase_eq, sqrtN_eq]

/-- The word count of the allocated buffer equals its integer twin. -/
theorem os2Dim_eq (limit0 : Nat) : os2Dim limit0 = os2DimN limit0 := by
  unfold os2Dim os2DimN
  rw [floor_rescale]

/-- `optimizedSieve2From` equals its pure-`Nat` twin; the concrete-value
evaluations below run on the twin. -/
theorem optimizedSieve2From_eq_pure (n limit0 : Nat) :
    optimizedSieve2From n limit0 = optimizedSieve2Pure n limit0 := by
  unfold optimizedSieve2From optimizedSieve2Pure
  rw [os2Sieve_eq, os2Dim_eq]

/-- An or with a nonzero word is nonzero. -/
theorem lor_ne_zero_right (a b : Nat) (hb : b ≠ 0) : a ||| b ≠ 0 := by
  intro h
  apply hb
  refine Nat.zero_of_testBit_eq_false fun i => ?_
  have h2 : (a ||| b).testBit i = false := by rw [h]; exact Nat.zero_testBit i
  rw [Nat.testBit_lor] at h2
  exact (Bool.or_eq_false_iff.mp h2).2

/-- Setting a bit gives a nonzero buffer. -/
theorem lor_shiftLeft_ne_zero (a j : Nat) : a ||| (1 <<< j) ≠ 0 := by
  apply lor_ne_zero_right
  rw [Nat.one_shiftLeft]
  positivity

/-- Past the bound, the marking loop is the identity. -/
theorem markFromN_ge (B s1 s2 j sieve : Nat) (h : ¬ j < B) :
    ∀ fuel, markFromN B s1 s2 fuel j sieve = sieve
  | 0 => rfl
  | fuel + 1 => by unfold markFromN; rw [if_neg h]

/-- One-step equation of `markFromN`. -/
theorem markFromN_succ_eq (B s1 s2 fuel j sieve : Nat) :
    markFromN B s1 s2 (fuel + 1) j sieve =
      if j < B then
        (if j + s1 < B then
          markFromN B s1 s2 fuel (j + s1 + s2) ((sieve ||| 1 <<< j) ||| 1 <<< (j + s1))
        else sieve ||| 1 <<< j)
      else sieve := rfl

/-- One-step equation of `markChunk`. -/
theorem markChunk_succ_eq (B s1 s2 fuel j sieve : Nat) :
    markChunk B s1 s2 (fuel + 1) (j, sieve) =
      if j < B then
        (if j + s1 < B then
          markChunk B s1 s2 fuel (j + s1 + s2, (sieve ||| 1 <<< j) ||| 1 <<< (j + s1))
        else (j + s1, sieve ||| 1 <<< j))
      else (j, sieve) := rfl

/-- One-step equation of `markMulti`. -/
theorem markMulti_succ_eq (B s1 s2 F j sieve : Nat) :
    markMulti B s1 s2 (F + 1) (j, sieve) =
      if j < B then
        (if (markChunk B s1 s2 256 (j, sieve)).2 = 0 then markChunk B s1 s2 256 (j, sieve)
         else markMulti B s1 s2 F (markChunk B s1 s2 256 (j, sieve)))
      else (j, sieve) := rfl

/-- Splitting the fuel of `markFromN` at a chunk boundary. -/
theorem markFromN_chunk_add (B s1 s2 : Nat) :
    ∀ f g j sieve,
      markFromN B s1 s2 (f + g) j sieve =
        markFromN B s1 s2 g (markChunk B s1 s2 f (j, sieve)).1
          (markChunk B s1 s2 f (j, sieve)).2
  | 0, g, j, sieve => by
    rw [Nat.zero_add]
    rfl
  | f + 1, g, j, sieve => by
    rw [Nat.succ_add, markFromN_succ_eq, markChunk_succ_eq]
    by_cases h : j < B
    · rw [if_pos h, if_pos h]
      by_cases h1 : j + s1 < B
      · rw [if_pos h1, if_pos h1]
        exact markFromN_chunk_add B s1 s2 f g _ _
      · rw [if_neg h1, if_neg h1]
        exact (markFromN_ge B s1 s2 _ _ h1 g).symm
    · rw [if_neg h, if_neg h]
      exact (markFromN_ge B s1 s2 _ _ h g).symm

/-- The chunk runner keeps the buffer nonzero. -/
theorem markChunk_pos (B s1 s2 : Nat) :
    ∀ f js, js.2 ≠ 0 → (markChunk B s1 s2 f js).2 ≠ 0
  | 0, js, h => h
  | f + 1, (j, sieve), h => by
    rw [markChunk_succ_eq]
    by_cases hj : j < B
    · rw [if_pos hj]
      by_cases h1 : j + s1 < B
      · rw [if_pos h1]
        exact markChunk_pos B s1 s2 f _ (lor_shiftLeft_ne_zero _ _)
      · rw [if_neg h1]
        exact lor_shiftLeft_ne_zero _ _
    · rw [if_neg hj]
      exact h

/-- A chunk started strictly below the bound produces a nonzero buffer. -/
theorem markChunk_ne_zero (B s1 s2 fuel j sieve : Nat) (h : j < B) :
    (markChunk B s1 s2 (fuel + 1) (j, sieve)).2 ≠ 0 := by
  rw [markChunk_succ_eq, if_pos h]
  by_cases h1 : j + s1 < B
  · rw [if_pos h1]
    exact markChunk_pos B s1 s2 fuel _ (lor_shiftLeft_ne_zero _ _)
  · rw [if_neg h1]
    exact lor_shiftLeft_ne_zero _ _

/-- Fuel above the bound gap can be raised by one without changing the run. -/
theorem markFromN_stable_succ (B s1 s2 : Nat) (hs : 1 ≤ s1 + s2) :
    ∀ f j sieve, B ≤ j + f → markFromN B s1 s2 (f + 1) j sieve = markFromN B s1 s2 f j sieve
  | 0, j, sieve, h => by
    rw [markFromN_succ_eq, if_neg (by omega)]
    rfl
  | f + 1, j, sieve, h => by
    conv_rhs => rw [markFromN_succ_eq B s1 s2 f]
    rw [markFromN_succ_eq B s1 s2 (f + 1)]
    by_cases hj : j < B
    · rw [if_pos hj, if_pos hj]
      by_cases h1 : j + s1 < B
      · rw [if_pos h1, if_pos h1]
        exact markFromN_stable_succ B s1 s2 hs f _ _ (by omega)
      · rw [if_neg h1, if_neg h1]
    · rw [if_neg hj, if_neg hj]

/-- Fuel above the bound gap can be raised arbitrarily. -/
theorem markFromN_stable_add (B s1 s2 : Nat) (hs : 1 ≤ s1 + s2) :
    ∀ d f j sieve, B ≤ j + f → markFromN B s1 s2 (f + d) j sieve = markFromN B s1 s2 f j sieve
  | 0, _, _, _, _ => rfl
  | d + 1, f, j, sieve, h => by
    rw [show f + (d + 1) = (f + d) + 1 by omega,
      markFromN_stable_succ B s1 s2 hs (f + d) j sieve (by omega)]
    exact markFromN_stable_add B s1 s2 hs d f j sieve h

/-- Any two sufficient fuels give the same run. -/
theorem markFromN_stable (B s1 s2 : Nat) (hs : 1 ≤ s1 + s2) (f f' j sieve : Nat)
    (hf : B ≤ j + f) (hf' : B ≤ j + f') :
    markFromN B s1 s2 f j sieve = markFromN B s1 s2 f' j sieve := by
  have h1 := markFromN_stable_add B s1 s2 hs (f - min f f') (min f f') j sieve (by omega)
  have h2 := markFromN_stable_add B s1 s2 hs (f' - min f f') (min f f') j sieve (by omega)
  rw [show min f f' + (f - min f f') = f by omega] at h1
  rw [show min f f' + (f' - min f f') = f' by omega] at h2
  rw [h1, h2]

/-- The multi-chunk runner computes `markFromN` (for any chunk count). -/
theorem markFromN_multi (B s1 s2 : Nat) :
    ∀ F g j sieve,
      markFromN B s1 s2 (256 * F + g) j sieve =
        markFromN B s1 s2 g (markMulti B s1 s2 F (j, sieve)).1
          (markMulti B s1 s2 F (j, sieve)).2
  | 0, g, j, sieve => by
    rw [show 256 * 0 + g = g by omega]
    rfl
  | F + 1, g, j, sieve => by
    rw [markMulti_succ_eq]
    by_cases hj : j < B
    · rw [if_pos hj, if_neg (markChunk_ne_zero B s1 s2 255 j sieve hj)]
      rcases hp : markChunk B s1 s2 256 (j, sieve) with ⟨j', s'⟩
      rw [show 256 * (F + 1) + g = 256 + (256 * F + g) by omega,
        markFromN_chunk_add B s1 s2 256 (256 * F + g) j sieve, hp]
      exact markFromN_multi B s1 s2 F g j' s'
    · rw [if_neg hj]
      show markFromN B s1 s2 (256 * (F + 1) + g) j sieve = markFromN B s1 s2 g j sieve
      rw [markFromN_ge B s1 s2 j sieve hj, markFromN_ge B s1 s2 j sieve hj]

/-- The chunked inner marking loop equals the plain one. -/
theorem markFromE_eq (B s1 s2 j sieve : Nat) (hs : 1 ≤ s1 + s2) :
    markFromE B s1 s2 j sieve = markFromN B s1 s2 (B + 1) j sieve := by
  unfold markFromE
  rw [← markFromN_multi B s1 s2 (B / 512 + 1) (B + 1) j sieve]
  exact markFromN_stable B s1 s2 hs _ _ _ _ (by omega) (by omega)

/-- The chunked per-index marking step equals the plain one. -/
theorem markStepE_eq (B sieve i : Nat) : markStepE B sieve i = markStepN B sieve i := by
  unfold markStepE markStepN
  have hs : 1 ≤ s1Of i + s2Of i := by
    unfold s1Of s2Of
    split <;> omega
  rw [markFromE_eq B (s1Of i) (s2Of i) (startOf i) sieve hs]

/-- The chunked marking phase equals the plain one. -/
theorem markPhaseE_eq (rootB B : Nat) : markPhaseE rootB B = markPhaseN rootB B := by
  unfold markPhaseE markPhaseN
  congr 1
  funext sieve i
  exact markStepE_eq B sieve i

/-- One-step equation of `countWords`. -/
theorem countWords_succ_eq (sieve target fuel k count : Nat) :
    countWords sieve target (fuel + 1) k count =
      if target ≤ count then some (k, count)
      else countWords sieve target fuel (k + 1) (count + popCount (compl32 (wordAt sieve k))) :=
  rfl

/-- One-step equation of `countChunk`. -/
theorem countChunk_succ_eq (sieve target fuel k count : Nat) :
    countChunk sieve target (fuel + 1) (k, count) =
      if target ≤ count then (k, count)
      else countChunk sieve target fuel (k + 1, count + popCount (compl32 (wordAt sieve k))) :=
  rfl

/-- One-step equation of `countMulti`. -/
theorem countMulti_succ_eq (sieve target F k count : Nat) :
    countMulti sieve target (F + 1) (k, count) =
      if target ≤ count then (k, count)
      else
        (if (countChunk sieve target 256 (k, count)).1 +
              (countChunk sieve target 256 (k, count)).2 = 0 then
          countChunk sieve target 256 (k, count)
        else countMulti sieve target F (countChunk sieve target 256 (k, count))) :=
  rfl

/-- With a satisfied target the count loop exits immediately. -/
theorem countWords_ge (sieve target count : Nat) (h : target ≤ count) :
    ∀ g k, countWords sieve target g k count = some (k, count)
  | 0, _ => by unfold countWords; rw [if_pos h]
  | _ + 1, _ => by rw [countWords_succ_eq, if_pos h]

/-- Splitting the fuel of the count loop at a chunk boundary. -/
theorem countWords_chunk_add (sieve target : Nat) :
    ∀ f g k c,
      countWords sieve target (f + g) k c =
        countWords sieve target g (countChunk sieve target f (k, c)).1
          (countChunk sieve target f (k, c)).2
  | 0, g, k, c => by
    rw [Nat.zero_add]
    rfl
  | f + 1, g, k, c => by
    rw [Nat.succ_add, countWords_succ_eq, countChunk_succ_eq]
    by_cases h : target ≤ c
    · rw [if_pos h, if_pos h]
      exact (countWords_ge sieve target c h g k).symm
    · rw [if_neg h, if_neg h]
      exact countWords_chunk_add sieve target f g _ _

/-- The count chunk runner keeps the count positive. -/
theorem countChunk_pos (sieve target : Nat) :
    ∀ f kc, kc.2 ≠ 0 → (countChunk sieve target f kc).2 ≠ 0
  | 0, _, h => h
  | f + 1, (k, c), h => by
    rw [countChunk_succ_eq]
    by_cases ht : target ≤ c
    · rw [if_pos ht]
      exact h
    · rw [if_neg ht]
      have hc : c ≠ 0 := h
      exact countChunk_pos sieve target f _ (by show c + _ ≠ 0; omega)

/-- The multi-chunk count runner computes `countWords`. -/
theorem countWords_multi (sieve target : Nat) :
    ∀ F g k c, c ≠ 0 →
      countWords sieve target (256 * F + g) k c =
        countWords sieve target g (countMulti sieve target F (k, c)).1
          (countMulti sieve target F (k, c)).2
  | 0, g, k, c, _ => by
    rw [show 256 * 0 + g = g by omega]
    rfl
  | F + 1, g, k, c, hc => by
    rw [countMulti_succ_eq]
    by_cases ht : target ≤ c
    · rw [if_pos ht]
      rw [countWords_ge sieve target c ht _ k, countWords_ge sieve target c ht g k]
    · rw [if_neg ht]
      have hpos : (countChunk sieve target 256 (k, c)).2 ≠ 0 :=
        countChunk_pos sieve target 256 (k, c) hc
      rw [if_neg (by omega)]
      rcases hp : countChunk sieve target 256 (k, c) with ⟨k', c'⟩
      rw [show 256 * (F + 1) + g = 256 + (256 * F + g) by omega,
        countWords_chunk_add sieve target 256 (256 * F + g) k c, hp]
      rw [hp] at hpos
      exact countWords_multi sieve target F g k' c' hpos

/-- The chunked wheel sieve equals the pure twin; all concrete evaluations
below are checked through this form. -/
theorem optimizedSieve2Eval_eq (n limit0 : Nat) :
    optimizedSieve2Eval n limit0 = optimizedSieve2Pure n limit0 := by
  unfold optimizedSieve2Eval optimizedSieve2Pure os2SieveN
  simp only [markPhaseE_eq]
  rw [← countWords_multi (markPhaseN (rescaleBound (sqrtN limit0)) (rescaleBound limit0))
      (n + 1) ((os2DimN limit0 + n + 2) / 256) ((os2DimN limit0 + n + 2) % 256) 0 2
      (by omega),
    show 256 * ((os2DimN limit0 + n + 2) / 256) + (os2DimN limit0 + n + 2) % 256 =
      os2DimN limit0 + n + 2 by omega]

/-- Evaluating `upperBound = Math.ceil(e)` at a pinned point. -/
theorem upperBoundOf_eq (e : ℚ) (m : Nat) (h1 : (m : ℚ) - 1 < e) (h2 : e ≤ m) :
    upperBoundOf e = m := by
  unfold upperBoundOf
  rw [show ⌈e⌉ = (m : ℤ) from Int.ceil_eq_iff.mpr ⟨by push_cast; linarith, by push_cast; linarith⟩]
  simp

/-- Evaluating `limit = Math.floor(E(n))` at a pinned point. -/
theorem limit0For_eq (n m : Nat) (h1 : (m : ℚ) ≤ eFor n) (h2 : eFor n < m + 1) :
    limit0For n = m := by
  unfold limit0For
  rw [show ⌊eFor n⌋ = (m : ℤ) from Int.floor_eq_iff.mpr
    ⟨by push_cast; linarith, by push_cast; linarith⟩]
  simp

/-- `NthPrime` routed through the kernel-evaluable twin. -/
theorem nthPrime_eval (n : Nat) : NthPrime n = optimizedSieve2Eval n (limit0For n) := by
  unfold NthPrime optimizedSieve2
  rw [optimizedSieve2From_eq_pure, optimizedSieve2Eval_eq]

/-- The pinned integer bounds used by the concrete evaluations. -/
theorem limit0For_values :
    limit0For 8 = 25 ∧ limit0For 10 = 34 ∧ limit0For 22 = 95 ∧ limit0For 99 = 608 ∧
      limit0For 500 = 4023 ∧ limit0For 1000 = 8843 ∧ limit0For 10000 = 114309 :=
  ⟨limit0For_eq 8 25 (by norm_num [eFor]) (by norm_num [eFor]),
   limit0For_eq 10 34 (by norm_num [eFor]) (by norm_num [eFor]),
   limit0For_eq 22 95 (by norm_num [eFor]) (by norm_num [eFor]),
   limit0For_eq 99 608 (by norm_num [eFor]) (by norm_num [eFor]),
   limit0For_eq 500 4023 (by norm_num [eFor]) (by norm_num [eFor]),
   limit0For_eq 1000 8843 (by norm_num [eFor]) (by norm_num [eFor]),
   limit0For_eq 10000 114309 (by norm_num [eFor]) (by norm_num [eFor])⟩

/-- **C2.**  The default strategy returns the reference table values at the
specified points — `NthPrime(0,1,2) = 2,3,5`, and likewise every strategy
returns `2, 3, 5` for `n = 0, 1, 2` (these are hardcoded before any bound is
computed, so they hold for every value of the transcendental bound
expression); and `NthPrime(8) = 23`, `NthPrime(10) = 31`, `NthPrime(99) = 541`,
`NthPrime(500) = 3581`, `NthPrime(1000) = 7927`, `NthPrime(10000) = 104743`,
with the integer bound `Math.floor(E(n))` pinned by `eFor`. -/
theorem c2_reference_values :
    (∀ e : ℚ, sieveOfEratosthenesE 0 e = [2] ∧ sieveOfEratosthenesE 1 e = [2, 3] ∧
      sieveOfEratosthenesE 2 e = [2, 3, 5]) ∧
    (∀ e eS : ℚ, segmentedSieveE 0 e eS = [2] ∧ segmentedSieveE 1 e eS = [2, 3] ∧
      segmentedSieveE 2 e eS = [2, 3, 5]) ∧
    (∀ e : ℚ, optimizedSieveE 0 e = 2 ∧ optimizedSieveE 1 e = 3 ∧ optimizedSieveE 2 e = 5) ∧
    (∀ l : Nat, optimizedSieve2From 0 l = 2 ∧ optimizedSieve2From 1 l = 3 ∧
      optimizedSieve2From 2 l = 5) ∧
    NthPrime 0 = 2 ∧ NthPrime 1 = 3 ∧ NthPrime 2 = 5 ∧
    NthPrime 8 = 23 ∧ NthPrime 10 = 31 ∧ NthPrime 99 = 541 ∧
    NthPrime 500 = 3581 ∧ NthPrime 1000 = 7927 ∧ NthPrime 10000 = 104743 := by
  obtain ⟨h8, h10, _, h99, h500, h1000, h10000⟩ := limit0For_values
  refine ⟨fun _ => ⟨rfl, rfl, rfl⟩, fun _ _ => ⟨rfl, rfl, rfl⟩, fun _ => ⟨rfl, rfl, rfl⟩,
    fun _ => ⟨rfl, rfl, rfl⟩, rfl, rfl, rfl, ?_, ?_, ?_, ?_, ?_, ?_⟩
  · rw [nthPrime_eval, h8]
    decide
  · rw [nthPrime_eval, h10]
    decide
  · rw [nthPrime_eval, h99]
    decide
  · rw [nthPrime_eval, h500]
    decide
  · rw [nthPrime_eval, h1000]
    decide
  · rw [nthPrime_eval, h10000]
    decide

/-- Euclidean form of a rational ceiling of a division. -/
theorem ceil_div_ofNat (a : ℤ) (b : Nat) (hb : 0 < b) :
    ⌈(a : ℚ) / (b : ℚ)⌉ = (a + b - 1) / (b : ℤ) := by
  have hbz : (0 : ℤ) < (b : ℤ) := by exact_mod_cast hb
  have hmod := Int.emod_add_ediv (a + b - 1) b
  have hm0 : 0 ≤ (a + b - 1) % b := Int.emod_nonneg _ (by omega)
  have hm1 : (a + b - 1) % b < b := Int.emod_lt_of_pos _ hbz
  have key1 : (b : ℤ) * ((a + b - 1) / b) - b < a := by linarith
  have key2 : a ≤ (b : ℤ) * ((a + b - 1) / b) := by linarith
  have hbq : (0 : ℚ) < (b : ℚ) := by exact_mod_cast hb
  rw [Int.ceil_eq_iff]
  constructor
  · rw [lt_div_iff₀ hbq]
    have key1' : (b : ℚ) * (((a + b - 1) / b : ℤ) : ℚ) - b < a := by exact_mod_cast key1
    ring_nf
    ring_nf at key1'
    linarith
  · rw [div_le_iff₀ hbq]
    have key2' : (a : ℚ) ≤ (b : ℚ) * (((a + b - 1) / b : ℤ) : ℚ) := by exact_mod_cast key2
    ring_nf
    ring_nf at key2'
    linarith

/-- **C6 (counterexample).**  The claim says the rescaling computes exactly
`2⌊v/6⌋ + δ`, always an integer.  At `v = 7` the code's switch (float
division) computes `2·(7/6) = 7/3`, which differs from the spec formula's
`2⌊7/6⌋ + 0 = 2` and is not an integer. -/
theorem c6_counterexample :
    rescale 7 = 7 / 3 ∧ rescale 7 ≠ (specRescaleIdx 7 : ℚ) ∧ ¬ ∃ z : ℤ, rescale 7 = z := by
  have h : rescale 7 = 7 / 3 := by
    rw [rescale_eq_div3]
    norm_num
  refine ⟨h, ?_, ?_⟩
  · rw [h]
    unfold specRescaleIdx
    norm_num
  · rintro ⟨z, hz⟩
    rw [h] at hz
    have h3 : (3 : ℚ) * z = 7 := by
      rw [← hz]
      ring
    have h4 : (3 : ℤ) * z = 7 := by exact_mod_cast h3
    omega

/-- **C6 (amended).**  The rescaling computes `2·(v/6) + δ` with *exact*
(float, here rational) division — that is, `v/3 + δ` with `δ = −1, +1, 0` for
`v ≡ 0, 5 (mod 6)`, otherwise — not `2⌊v/6⌋ + δ`.  The result is an integer
exactly when `3 ∣ v`; used as an exclusive loop bound over the naturals it
admits exactly the indices below `rescaleBound v`. -/
theorem c6_amended (v : Nat) :
    rescale v = (v : ℚ) / 3 +
        ((if v % 6 = 0 then -1 else if v % 6 = 5 then 1 else 0 : ℤ) : ℚ) ∧
      ((∃ z : ℤ, rescale v = z) ↔ 3 ∣ v) ∧
      ∀ j : Nat, ((j : ℚ) < rescale v ↔ j < rescaleBound v) := by
  refine ⟨rescale_eq_div3 v, ?_, fun j => coe_lt_rescale j v⟩
  rw [rescale_eq_div3 v]
  set d : ℤ := if v % 6 = 0 then -1 else if v % 6 = 5 then 1 else 0 with hd
  constructor
  · rintro ⟨z, hz⟩
    have h3 : (v : ℚ) = 3 * ((z - d : ℤ) : ℚ) := by
      push_cast
      linarith
    have h4 : (v : ℤ) = 3 * (z - d) := by exact_mod_cast h3
    exact ⟨(z - d).toNat, by omega⟩
  · rintro ⟨m, hm⟩
    refine ⟨m + d, ?_⟩
    subst hm
    push_cast
    ring

/-- **C5 (counterexample).**  The claim says the switch's forward rescaling
(`2⌊v/6⌋ + δ`, per the spec's reading) composed with the step-7 recovery
formula `3(p + (k<<5)) + 7 + (p mod 2)` is the identity on values
`v ≡ 1, 5 (mod 6)`.  At `v = 7`: the forward index is `2`, and the recovery
formula at bit `2` of word `0` yields `13`, not `7`. -/
theorem c5_counterexample :
    specRescaleIdx 7 = 2 ∧ recoverValue (specRescaleIdx 7) 0 = 13 ∧
      recoverValue (specRescaleIdx 7) 0 ≠ 7 := by
  refine ⟨by decide, by decide, by decide⟩

/-- **C5 (amended).**  The bijection realised by the code maps bit position
`g` to the value `wheelValue g` (`3g+5` for even `g`, `3g+4` for odd `g`,
values `≡ 5, 1 (mod 6)` starting at `5`); its inverse is
`wheelIdx v = 2⌊v/6⌋` for `v ≡ 5` and `2⌊v/6⌋ − 1` for `v ≡ 1` — not the
switch rescaling.  The step-7 recovery expression applied to the scan's final
`p` (one below the found bit, possibly `−1`) yields the value of bit
`p + 32k + 1`, matching this bijection. -/
theorem c5_amended :
    (∀ g : Nat, wheelIdx (wheelValue g) = g) ∧
      (∀ v : Nat, 5 ≤ v → v % 6 = 1 ∨ v % 6 = 5 → wheelValue (wheelIdx v) = v) ∧
      (∀ g : Nat, wheelValue g % 6 = if g % 2 = 0 then 5 else 1) ∧
      (∀ (p : ℤ) (k : Nat), -1 ≤ p →
        recoverValue p k = wheelValue (p + 32 * k + 1).toNat) := by
  refine ⟨?_, ?_, ?_, ?_⟩
  · intro g
    unfold wheelValue wheelIdx
    split <;> omega
  · intro v h5 h6
    unfold wheelValue wheelIdx
    split <;> omega
  · intro g
    unfold wheelValue
    split <;> omega
  · intro p k hp
    unfold recoverValue wheelValue
    omega

/-- **C7 (counterexample).**  The claim says `optimizedSieve2` computes its
bound with the §4.1 formula `⌈E(n)⌉`.  At `n = 8` the code's
`limit = Math.floor(E(8)) = 25` while the §4.1 / `sieveOfEratosthenes`
formula `Math.ceil(E(8)) = 26`. -/
theorem c7_counterexample :
    limit0For 8 = 25 ∧ upperBoundOf (eFor 8) = 26 ∧ limit0For 8 ≠ upperBoundOf (eFor 8) := by
  have h1 : limit0For 8 = 25 := limit0For_values.1
  have h2 : upperBoundOf (eFor 8) = 26 :=
    upperBoundOf_eq _ 26 (by norm_num [eFor]) (by norm_num [eFor])
  exact ⟨h1, h2, by omega⟩

/-- **C7 (amended).**  `optimizedSieve2` computes `limit = ⌊E(n)⌋` — one
*less* than §4.1's ceiling whenever `E(n)` is not an integer — and its
`root = ⌊√limit⌋` with no `+1` increment (so the wheel loop runs over the
indices below `rescale (Nat.sqrt limit)`), unlike `optimizedSieve`, whose
`root` (line 109) is `⌊√limit⌋ + 1`. -/
theorem c7_amended :
    (∀ e : ℚ, 0 ≤ e → (¬ ∃ z : ℤ, e = z) → upperBoundOf e = (⌊e⌋).toNat + 1) ∧
      (∀ limit0 : Nat, os2Root limit0 = rescale (Nat.sqrt limit0) ∧
        qCeilNat (os2Root limit0) = rescaleBound (Nat.sqrt limit0)) := by
  constructor
  · intro e he hz
    have hne : ⌈e⌉ = ⌊e⌋ + 1 := by
      rcases eq_or_lt_of_le (Int.floor_le_ceil e) with h | h
      · exact absurd
          ⟨⌊e⌋, le_antisymm
            (le_trans (Int.le_ceil e) (by exact_mod_cast h.ge)) (Int.floor_le e)⟩ hz
      · have := Int.ceil_le_floor_add_one e
        omega
    unfold upperBoundOf
    rw [hne]
    have h0 : 0 ≤ ⌊e⌋ := Int.floor_nonneg.mpr he
    omega
  · intro limit0
    exact ⟨rfl, qCeilNat_rescale _⟩

/-- **C9 (counterexample).**  The claim says the packed buffer has exactly
`⌈limit/32⌉` words.  At `n = 22` the integer bound is `95`, the wheel limit is
`98/3`, and the code allocates `dim = (ToInt32(98/3) + 31) >> 5 = 1` word while
`⌈(98/3)/32⌉ = 2`. -/
theorem c9_counterexample :
    limit0For 22 = 95 ∧ os2Dim 95 = 1 ∧ ⌈rescale 95 / 32⌉ = 2 := by
  refine ⟨limit0For_values.2.2.1, ?_, ?_⟩
  · rw [os2Dim_eq]
    decide
  · have hd : rescale 95 / 32 = ((98 : ℤ) : ℚ) / ((96 : ℕ) : ℚ) := by
      rw [rescale_eq_div3]
      norm_num
    rw [hd, ceil_div_ofNat 98 96 (by norm_num)]
    decide

/-- **C9 (amended).**  The buffer is allocated with
`dim = (⌊limit⌋ + 31) >> 5` words (`ToInt32` truncates the fractional wheel
limit); this equals `⌈limit/32⌉` whenever the wheel limit is an integer
(`3 ∣ limit0`) or `⌊limit⌋` is not a multiple of 32, and is one word short in
the remaining case (realised at `n = 22`).  Immediately after allocation every
bit reads as a prime candidate: the guard expression
`sieve[i >> 5] & (1 << (i & 31))` evaluates to `0` on the fresh buffer. -/
theorem c9_amended :
    (∀ limit0 : Nat, os2Dim limit0 = (rescaleFloor limit0 + 31).toNat / 32) ∧
      (∀ limit0 : Nat, (3 ∣ limit0 ∨ ⌊rescale limit0⌋ % 32 ≠ 0) →
        (os2Dim limit0 : ℤ) = ⌈rescale limit0 / 32⌉) ∧
      (∀ i : Nat, wordAt 0 (i >>> 5) &&& (1 <<< (i &&& 31)) = 0) := by
  refine ⟨?_, ?_, ?_⟩
  · intro limit0
    unfold os2Dim
    rw [floor_rescale]
  · intro limit0 h
    rw [floor_rescale] at h
    rw [os2Dim_eq]
    unfold os2DimN
    have key : ∀ d : ℤ, rescale limit0 = (limit0 : ℚ) / 3 + (d : ℚ) →
        ⌈rescale limit0 / 32⌉ = ((limit0 : ℤ) + 3 * d + 95) / 96 := by
      intro d hdq
      rw [hdq,
        show ((limit0 : ℚ) / 3 + (d : ℚ)) / 32 =
          (((limit0 : ℤ) + 3 * d : ℤ) : ℚ) / ((96 : ℕ) : ℚ) by push_cast; ring,
        ceil_div_ofNat _ 96 (by norm_num)]
      omega
    have h6 : limit0 % 6 = 0 ∨ limit0 % 6 = 1 ∨ limit0 % 6 = 2 ∨ limit0 % 6 = 3 ∨
        limit0 % 6 = 4 ∨ limit0 % 6 = 5 := by omega
    rcases h6 with h1 | h1 | h1 | h1 | h1 | h1
    · rw [key (-1) (by rw [rescale_eq_div3, h1]; norm_num)]
      unfold rescaleFloor at h ⊢
      simp only [h1] at h ⊢
      norm_num at h ⊢
      omega
    · rw [key 0 (by rw [rescale_eq_div3, h1]; norm_num)]
      unfold rescaleFloor at h ⊢
      simp only [h1] at h ⊢
      norm_num at h ⊢
      omega
    · rw [key 0 (by rw [rescale_eq_div3, h1]; norm_num)]
      unfold rescaleFloor at h ⊢
      simp only [h1] at h ⊢
      norm_num at h ⊢
      omega
    · rw [key 0 (by rw [rescale_eq_div3, h1]; norm_num)]
      unfold rescaleFloor at h ⊢
      simp only [h1] at h ⊢
      norm_num at h ⊢
      omega
    · rw [key 0 (by rw [rescale_eq_div3, h1]; norm_num)]
      unfold rescaleFloor at h ⊢
      simp only [h1] at h ⊢
      norm_num at h ⊢
      omega
    · rw [key 1 (by rw [rescale_eq_div3, h1]; norm_num)]
      unfold rescaleFloor at h ⊢
      simp only [h1] at h ⊢
      norm_num at h ⊢
      omega
  · intro i
    unfold wordAt
    simp

/-- Witness for `c5_amended` at `v = 25`, `p = 5`, `k = 0`. -/
theorem c5_amended_witness :
    5 ≤ 25 ∧ (25 % 6 = 1 ∨ 25 % 6 = 5) ∧ wheelValue (wheelIdx 25) = 25 ∧
      (-1 : ℤ) ≤ 5 ∧ recoverValue 5 0 = wheelValue ((5 : ℤ) + 32 * (0 : Nat) + 1).toNat :=
  ⟨by decide, by decide, c5_amended.2.1 25 (by decide) (by decide), by decide,
    c5_amended.2.2.2 5 0 (by decide)⟩

/-- Witness for `c7_amended` at `e = eFor 8`. -/
theorem c7_amended_witness :
    (0 : ℚ) ≤ eFor 8 ∧ (¬ ∃ z : ℤ, eFor 8 = z) ∧
      upperBoundOf (eFor 8) = (⌊eFor 8⌋).toNat + 1 := by
  have h0 : (0 : ℚ) ≤ eFor 8 := by norm_num [eFor]
  have hni : ¬ ∃ z : ℤ, eFor 8 = z := by
    rintro ⟨z, hz⟩
    have h1 : (25 : ℚ) < z := by
      rw [← hz]
      norm_num [eFor]
    have h2 : (z : ℚ) < 26 := by
      rw [← hz]
      norm_num [eFor]
    have h1' : (25 : ℤ) < z := by exact_mod_cast h1
    have h2' : z < (26 : ℤ) := by exact_mod_cast h2
    omega
  exact ⟨h0, hni, c7_amended.1 (eFor 8) h0 hni⟩

/-- Witness for `c9_amended` at `limit0 = 608`. -/
theorem c9_amended_witness :
    (3 ∣ 608 ∨ ⌊rescale 608⌋ % 32 ≠ 0) ∧ (os2Dim 608 : ℤ) = ⌈rescale 608 / 32⌉ := by
  have h : 3 ∣ 608 ∨ ⌊rescale 608⌋ % 32 ≠ 0 := Or.inr (by rw [floor_rescale]; decide)
  exact ⟨h, c9_amended.2.1 608 h⟩

/-- Bit test of a one-bit mask. -/
theorem testBit_one_shiftLeft (j b : Nat) : (1 <<< j).testBit b = true ↔ b = j := by
  rw [Nat.one_shiftLeft]
  rcases eq_or_ne b j with h | h
  · subst h
    simp [Nat.testBit_two_pow_self]
  · simp [Nat.testBit_two_pow_of_ne (Ne.symm h), h]

/-- Bit test through an or. -/
theorem testBit_lor_iff (a c b : Nat) :
    (a ||| c).testBit b = true ↔ a.testBit b = true ∨ c.testBit b = true := by
  rw [Nat.testBit_lor]
  simp

/-- `strideSeq` is monotone in the step count. -/
theorem strideSeq_le_succ (start s1 s2 u : Nat) :
    strideSeq start s1 s2 u ≤ strideSeq start s1 s2 (u + 1) := by
  show strideSeq start s1 s2 u ≤ strideSeq start s1 s2 u + _
  omega

/-- Every visited position is at least the start. -/
theorem strideSeq_ge_start (start s1 s2 : Nat) : ∀ u, start ≤ strideSeq start s1 s2 u
  | 0 => le_refl start
  | u + 1 => le_trans (strideSeq_ge_start start s1 s2 u) (strideSeq_le_succ start s1 s2 u)

/-- From step 1 on, every visited position is at least `start + s1`. -/
theorem strideSeq_ge_one (start s1 s2 : Nat) :
    ∀ u, 1 ≤ u → start + s1 ≤ strideSeq start s1 s2 u
  | 1, _ => by
    show start + s1 ≤ start + if 0 % 2 = 0 then s1 else s2
    norm_num
  | u + 2, _ => le_trans (strideSeq_ge_one start s1 s2 (u + 1) (by omega))
      (strideSeq_le_succ start s1 s2 (u + 1))

/-- One-step equation of `markFrom`. -/
theorem markFrom_succ_eq (limitQ : ℚ) (s1 s2 fuel j sieve : Nat) :
    markFrom limitQ s1 s2 (fuel + 1) j sieve =
      if (j : ℚ) < limitQ then
        (if ((j + s1 : Nat) : ℚ) < limitQ then
          markFrom limitQ s1 s2 fuel (j + s1 + s2) ((sieve ||| 1 <<< j) ||| 1 <<< (j + s1))
        else sieve ||| 1 <<< j)
      else sieve := rfl

/-- Dropping the first two steps restarts the sequence one period later. -/
theorem strideSeq_shift (start s1 s2 : Nat) :
    ∀ u, strideSeq start s1 s2 (u + 2) = strideSeq (start + s1 + s2) s1 s2 u
  | 0 => by
    show (strideSeq start s1 s2 1 + if 1 % 2 = 0 then s1 else s2) = start + s1 + s2
    show ((start + if 0 % 2 = 0 then s1 else s2) + if 1 % 2 = 0 then s1 else s2) =
      start + s1 + s2
    norm_num
  | u + 1 => by
    show strideSeq start s1 s2 (u + 2) + (if (u + 2) % 2 = 0 then s1 else s2) =
      strideSeq (start + s1 + s2) s1 s2 u + (if u % 2 = 0 then s1 else s2)
    rw [strideSeq_shift start s1 s2 u, show (u + 2) % 2 = u % 2 by omega]

/-- The marked bits of the inner loop are exactly the old bits together with
the alternating-stride positions below the limit (given sufficient fuel). -/
theorem markFrom_testBit (limitQ : ℚ) (s1 s2 : Nat) (hs1 : 1 ≤ s1) :
    ∀ fuel j sieve b, qCeilNat limitQ ≤ j + fuel →
      ((markFrom limitQ s1 s2 fuel j sieve).testBit b = true ↔
        sieve.testBit b = true ∨
          ∃ u, b = strideSeq j s1 s2 u ∧ (b : ℚ) < limitQ)
  | 0, j, sieve, b, hf => by
    show sieve.testBit b = true ↔ _
    constructor
    · exact Or.inl
    · rintro (h | ⟨u, rfl, hb⟩)
      · exact h
      · exfalso
        have h1 : strideSeq j s1 s2 u < qCeilNat limitQ := (lt_qCeilNat _ _).mpr hb
        have h2 := strideSeq_ge_start j s1 s2 u
        omega
  | fuel + 1, j, sieve, b, hf => by
    rw [markFrom_succ_eq]
    by_cases hj : (j : ℚ) < limitQ
    · rw [if_pos hj]
      by_cases hj1 : ((j + s1 : Nat) : ℚ) < limitQ
      · rw [if_pos hj1]
        have hcj1 : j + s1 < qCeilNat limitQ := (lt_qCeilNat _ _).mpr hj1
        rw [markFrom_testBit limitQ s1 s2 hs1 fuel (j + s1 + s2) _ b (by omega)]
        rw [testBit_lor_iff, testBit_lor_iff, testBit_one_shiftLeft, testBit_one_shiftLeft]
        have hseq1 : strideSeq j s1 s2 1 = j + s1 := by
          show j + (if 0 % 2 = 0 then s1 else s2) = j + s1
          norm_num
        constructor
        · rintro (((h | rfl) | rfl) | ⟨u, rfl, hb⟩)
          · exact Or.inl h
          · exact Or.inr ⟨0, rfl, hj⟩
          · exact Or.inr ⟨1, hseq1.symm, hj1⟩
          · exact Or.inr ⟨u + 2, (strideSeq_shift j s1 s2 u).symm, hb⟩
        · rintro (h | ⟨u, rfl, hb⟩)
          · exact Or.inl (Or.inl (Or.inl h))
          · rcases u with _ | (_ | u)
            · exact Or.inl (Or.inl (Or.inr rfl))
            · exact Or.inl (Or.inr hseq1)
            · exact Or.inr ⟨u, (strideSeq_shift j s1 s2 u), hb⟩
      · rw [if_neg hj1, testBit_lor_iff, testBit_one_shiftLeft]
        have hcj1 : qCeilNat limitQ ≤ j + s1 := by
          have h2 : ¬ (j + s1 < qCeilNat limitQ) := fun hc => hj1 ((lt_qCeilNat _ _).mp hc)
          omega
        constructor
        · rintro (h | rfl)
          · exact Or.inl h
          · exact Or.inr ⟨0, rfl, hj⟩
        · rintro (h | ⟨u, rfl, hb⟩)
          · exact Or.inl h
          · rcases u with _ | u
            · exact Or.inr rfl
            · exfalso
              have h1 := strideSeq_ge_one j s1 s2 (u + 1) (by omega)
              have h2 : strideSeq j s1 s2 (u + 1) < qCeilNat limitQ :=
                (lt_qCeilNat _ _).mpr hb
              omega
    · rw [if_neg hj]
      have hcj : qCeilNat limitQ ≤ j := by
        have h2 : ¬ (j < qCeilNat limitQ) := fun hc => hj ((lt_qCeilNat _ _).mp hc)
        omega
      constructor
      · exact Or.inl
      · rintro (h | ⟨u, rfl, hb⟩)
        · exact h
        · exfalso
          have h1 := strideSeq_ge_start j s1 s2 u
          have h2 : strideSeq j s1 s2 u < qCeilNat limitQ := (lt_qCeilNat _ _).mpr hb
          omega

/-- Value of an even-position candidate. -/
theorem wheelValue_even (m : Nat) (h : m % 2 = 0) : wheelValue m = 3 * m + 5 := by
  unfold wheelValue
  omega

/-- Value of an odd-position candidate. -/
theorem wheelValue_odd (m : Nat) (h : m % 2 = 1) : wheelValue m = 3 * m + 4 := by
  unfold wheelValue
  omega

/-- Both strides are odd. -/
theorem s1Of_odd (i : Nat) : s1Of i % 2 = 1 := by
  unfold s1Of
  split <;> omega

theorem s2Of_odd (i : Nat) : s2Of i % 2 = 1 := by
  unfold s2Of
  split <;> omega

/-- The starting offset is odd. -/
theorem startOf_odd (i : Nat) : startOf i % 2 = 1 := by
  unfold startOf
  by_cases h : i % 2 = 1
  · rw [if_pos h]
    obtain ⟨t, rfl⟩ : ∃ t, i = 2 * t + 1 := ⟨i / 2, by omega⟩
    ring_nf
    omega
  · rw [if_neg h]
    obtain ⟨t, rfl⟩ : ∃ t, i = 2 * t := ⟨i / 2, by omega⟩
    ring_nf
    omega

/-- Parity of the visited positions: position `u` is odd for even `u`. -/
theorem strideSeq_parity (i : Nat) :
    ∀ u, strideSeq (startOf i) (s1Of i) (s2Of i) u % 2 = (u + 1) % 2
  | 0 => startOf_odd i
  | u + 1 => by
    show (strideSeq (startOf i) (s1Of i) (s2Of i) u +
      (if u % 2 = 0 then s1Of i else s2Of i)) % 2 = _
    rw [Nat.add_mod, strideSeq_parity i u]
    have h1 := s1Of_odd i
    have h2 := s2Of_odd i
    split <;> omega

/-- The first marked position carries the square of the represented prime. -/
theorem wheelValue_startOf (i : Nat) :
    wheelValue (startOf i) = wheelValue i * wheelValue i := by
  by_cases h : i % 2 = 1
  · rw [wheelValue_odd _ (startOf_odd i), wheelValue_odd i h]
    unfold startOf
    rw [if_pos h]
    ring
  · rw [wheelValue_odd _ (startOf_odd i), wheelValue_even i (by omega)]
    unfold startOf
    rw [if_neg h]
    ring

/-- Each step advances the represented value by `2·P` or `4·P`. -/
theorem strideSeq_step_val (i : Nat) (u : Nat) :
    wheelValue (strideSeq (startOf i) (s1Of i) (s2Of i) (u + 1)) =
      wheelValue (strideSeq (startOf i) (s1Of i) (s2Of i) u) +
        (if u % 2 = i % 2 then 2 else 4) * wheelValue i := by
  have hu := strideSeq_parity i u
  show wheelValue (strideSeq (startOf i) (s1Of i) (s2Of i) u +
      (if u % 2 = 0 then s1Of i else s2Of i)) = _
  set A := strideSeq (startOf i) (s1Of i) (s2Of i) u with hA
  have h1 := s1Of_odd i
  have h2 := s2Of_odd i
  by_cases hue : u % 2 = 0 <;> by_cases hie : i % 2 = 1
  · rw [if_pos hue, if_neg (by omega)]
    have hsv : s1Of i = 4 * i + 5 := by unfold s1Of; rw [if_pos hie]
    rw [wheelValue_even _ (by omega), wheelValue_odd _ (by omega), wheelValue_odd i hie, hsv]
    omega
  · rw [if_pos hue, if_pos (by omega)]
    have hsv : s1Of i = 2 * i + 3 := by unfold s1Of; rw [if_neg hie]
    rw [wheelValue_even _ (by omega), wheelValue_odd _ (by omega),
      wheelValue_even i (by omega), hsv]
    omega
  · rw [if_neg hue, if_pos (by omega)]
    have hsv : s2Of i = 2 * i + 3 := by unfold s2Of; rw [if_pos hie]
    rw [wheelValue_odd _ (by omega), wheelValue_even _ (by omega), wheelValue_odd i hie, hsv]
    omega
  · rw [if_neg hue, if_neg (by omega)]
    have hsv : s2Of i = 4 * i + 7 := by unfold s2Of; rw [if_neg hie]
    rw [wheelValue_odd _ (by omega), wheelValue_even _ (by omega),
      wheelValue_even i (by omega), hsv]
    omega

/-- Every visited position carries a multiple of the represented prime. -/
theorem strideSeq_dvd (i : Nat) :
    ∀ u, wheelValue i ∣ wheelValue (strideSeq (startOf i) (s1Of i) (s2Of i) u)
  | 0 => ⟨wheelValue i, wheelValue_startOf i⟩
  | u + 1 => by
    rw [strideSeq_step_val i u]
    exact dvd_add (strideSeq_dvd i u) (dvd_mul_left _ _)

/-- **C8.**  For every wheel index `i`, when bit `i` is unset the marking step
sets exactly the bits at positions `start, start+s1, start+s1+s2, …`
(alternating the two parity-dependent strides, `startOf`/`s1Of`/`s2Of`
carrying the claimed closed forms) that lie below the wheel limit, leaving all
other bits as they were; and every such position is the wheel index of a
multiple of the prime `wheelValue i` represented by `i` (the first being its
square). -/
theorem c8_marking_exact (i : Nat) (limitQ : ℚ) (sieve b : Nat) :
    ((markStep limitQ sieve i).testBit b = true ↔
      sieve.testBit b = true ∨
        (wordAt sieve (i >>> 5) &&& (1 <<< (i &&& 31)) = 0 ∧
          ∃ u, b = strideSeq (startOf i) (s1Of i) (s2Of i) u ∧ (b : ℚ) < limitQ)) ∧
      (∀ u, wheelValue i ∣ wheelValue (strideSeq (startOf i) (s1Of i) (s2Of i) u)) ∧
      wheelValue (strideSeq (startOf i) (s1Of i) (s2Of i) 0) =
        wheelValue i * wheelValue i := by
  have hs1 : 1 ≤ s1Of i := by
    unfold s1Of
    split <;> omega
  refine ⟨?_, strideSeq_dvd i, wheelValue_startOf i⟩
  unfold markStep
  by_cases hg : wordAt sieve (i >>> 5) &&& (1 <<< (i &&& 31)) = 0
  · rw [if_pos hg, markFrom_testBit limitQ (s1Of i) (s2Of i) hs1 (qCeilNat limitQ + 1)
      (startOf i) sieve b (by omega)]
    simp only [hg, true_and]
  · rw [if_neg hg]
    simp [hg]

/-- The inner marking loop only ever sets bits below the wheel limit `B`, so
the buffer stays below `2 ^ B`. -/
theorem markFromN_lt (B s1 s2 : Nat) :
    ∀ fuel j sieve, sieve < 2 ^ B → markFromN B s1 s2 fuel j sieve < 2 ^ B
  | 0, _, _, h => h
  | fuel + 1, j, sieve, h => by
    rw [markFromN_succ_eq]
    by_cases hj : j < B
    · rw [if_pos hj]
      have hb1 : (1 <<< j) < 2 ^ B := by
        rw [Nat.one_shiftLeft]
        exact Nat.pow_lt_pow_right (by norm_num) hj
      by_cases hj1 : j + s1 < B
      · rw [if_pos hj1]
        have hb2 : (1 <<< (j + s1)) < 2 ^ B := by
          rw [Nat.one_shiftLeft]
          exact Nat.pow_lt_pow_right (by norm_num) hj1
        exact markFromN_lt B s1 s2 fuel _ _
          (Nat.or_lt_two_pow (Nat.or_lt_two_pow h hb1) hb2)
      · rw [if_neg hj1]
        exact Nat.or_lt_two_pow h hb1
    · rw [if_neg hj]
      exact h

/-- The per-index marking step keeps the buffer below `2 ^ B`. -/
theorem markStepN_lt (B sieve i : Nat) (h : sieve < 2 ^ B) :
    markStepN B sieve i < 2 ^ B := by
  unfold markStepN
  split
  · exact markFromN_lt B (s1Of i) (s2Of i) (B + 1) (startOf i) sieve h
  · exact h

/-- The whole marking phase keeps the buffer below `2 ^ B`. -/
theorem foldl_markStepN_lt (B : Nat) :
    ∀ (l : List Nat) (sieve : Nat), sieve < 2 ^ B → l.foldl (markStepN B) sieve < 2 ^ B
  | [], _, h => h
  | i :: l, sieve, h => foldl_markStepN_lt B l _ (markStepN_lt B sieve i h)

/-- The finished buffer of `optimizedSieve2` has no bit at or above the wheel
limit. -/
theorem os2SieveN_lt (limit0 : Nat) : os2SieveN limit0 < 2 ^ rescaleBound limit0 := by
  unfold os2SieveN markPhaseN
  exact foldl_markStepN_lt _ _ 0 (pow_pos (by norm_num) _)

/-- Words at or past the bound read as zero. -/
theorem wordAt_eq_zero (sieve B k : Nat) (hs : sieve < 2 ^ B) (hk : B ≤ 32 * k) :
    wordAt sieve k = 0 := by
  unfold wordAt
  rw [Nat.shiftRight_eq_div_pow,
    Nat.div_eq_of_lt (lt_of_lt_of_le hs (Nat.pow_le_pow_right (by norm_num) hk)),
    Nat.zero_and]

/-- The wheel limit fits inside `dim + 1` allocated words. -/
theorem rescaleBound_le_dim (limit0 : Nat) :
    rescaleBound limit0 ≤ 32 * (os2DimN limit0 + 1) := by
  unfold rescaleBound os2DimN rescaleFloor
  split_ifs <;> omega

/-- The count loop returns within `(d - k) + target` iterations once every
word from `d` on contributes a full popcount of 32: before `d` the running
count never decreases, and from `d` on it strictly increases by 32 per word. -/
theorem countWords_isSome (sieve target d : Nat)
    (hd : ∀ k, d ≤ k → popCount (compl32 (wordAt sieve k)) = 32) :
    ∀ fuel k count, d - k + target ≤ fuel + count →
      (countWords sieve target fuel k count).isSome = true
  | 0, k, count, h => by
    unfold countWords
    rw [if_pos (by omega)]
    rfl
  | fuel + 1, k, count, h => by
    rw [countWords_succ_eq]
    by_cases hc : target ≤ count
    · rw [if_pos hc]
      rfl
    · rw [if_neg hc]
      by_cases hk : k < d
      · exact countWords_isSome sieve target d hd fuel (k + 1) _ (by omega)
      · have h32 := hd k (by omega)
        exact countWords_isSome sieve target d hd fuel (k + 1) _ (by omega)

/-- **C10.**  For every rank `n` and integer bound `limit0`, the word-scanning
count loop of `optimizedSieve2` terminates: every word at or past the
allocated `dim` words reads as a value whose 32-bit complement popcounts to a
full 32, so the running count (which never decreases) strictly increases by 32
per word from there on and passes `n + 1` within the modelled fuel
`dim + n + 2` — the loop, started at `k = 0, count = 2`, returns a result. -/
theorem c10_count_terminates (n limit0 : Nat) :
    (∀ k, os2Dim limit0 + 1 ≤ k →
      popCount (compl32 (wordAt (os2Sieve limit0) k)) = 32) ∧
    (countWords (os2Sieve limit0) (n + 1) (os2Dim limit0 + n + 2) 0 2).isSome = true := by
  rw [os2Sieve_eq, os2Dim_eq]
  have hs := os2SieveN_lt limit0
  have hw : ∀ k, os2DimN limit0 + 1 ≤ k →
      popCount (compl32 (wordAt (os2SieveN limit0) k)) = 32 := by
    intro k hk
    rw [wordAt_eq_zero (os2SieveN limit0) (rescaleBound limit0) k hs
      (le_trans (rescaleBound_le_dim limit0) (by omega))]
    decide
  exact ⟨hw, countWords_isSome _ _ (os2DimN limit0 + 1) hw (os2DimN limit0 + n + 2) 0 2
    (by omega)⟩

/-- Concrete instance of C10 at `n = 3`, `limit0 = 6`: the word past the
single allocated word popcounts to 32 and the count loop returns. -/
theorem c10_count_terminates_witness :
    popCount (compl32 (wordAt (os2Sieve 6) 5)) = 32 ∧
    (countWords (os2Sieve 6) (3 + 1) (os2Dim 6 + 3 + 2) 0 2).isSome = true :=
  ⟨(c10_count_terminates 3 6).1 5 (by rw [os2Dim_eq]; decide),
    (c10_count_terminates 3 6).2⟩

/-- One-step equation of `markMultiples`. -/
theorem markMultiples_succ_eq (len i fuel j : Nat) (buf : Nat → Bool) :
    markMultiples len i (fuel + 1) j buf =
      if j < len then
        markMultiples len i fuel (j + i) (fun x => if x = j then false else buf x)
      else buf := rfl

/-- The cells cleared by the inner loop of `sieveOfEratosthenes` are exactly
the already-clear ones plus the arithmetic progression `j, j+i, j+2i, …`
below `len` (for fuel covering the whole progression). -/
theorem markMultiples_false (len i : Nat) :
    ∀ fuel j buf x, len ≤ j + i * fuel →
      (markMultiples len i fuel j buf x = false ↔
        buf x = false ∨ ∃ t, x = j + i * t ∧ x < len)
  | 0, j, buf, x, hf => by
    show buf x = false ↔ _
    constructor
    · exact Or.inl
    · rintro (h | ⟨t, hxt, hx⟩)
      · exact h
      · have h0 : i * 0 = 0 := by ring
        simp only [Nat.mul_zero] at hf
        omega
  | fuel + 1, j, buf, x, hf => by
    rw [markMultiples_succ_eq]
    have hmul : i * (fuel + 1) = i * fuel + i := by ring
    by_cases hj : j < len
    · rw [if_pos hj,
        markMultiples_false len i fuel (j + i) (fun x => if x = j then false else buf x) x
          (by omega)]
      constructor
      · rintro (h | ⟨t, hxt, hx⟩)
        · have h' : (if x = j then false else buf x) = false := h
          by_cases hxj : x = j
          · exact Or.inr ⟨0, by omega, by omega⟩
          · rw [if_neg hxj] at h'
            exact Or.inl h'
        · have ht1 : i * (t + 1) = i * t + i := by ring
          exact Or.inr ⟨t + 1, by omega, hx⟩
      · rintro (h | ⟨t, hxt, hx⟩)
        · refine Or.inl ?_
          show (if x = j then false else buf x) = false
          by_cases hxj : x = j
          · rw [if_pos hxj]
          · rw [if_neg hxj]
            exact h
        · rcases t with _ | s
          · have hxj : x = j := by omega
            refine Or.inl ?_
            show (if x = j then false else buf x) = false
            rw [if_pos hxj]
          · have hs1 : i * (s + 1) = i * s + i := by ring
            exact Or.inr ⟨s, by omega, hx⟩
    · rw [if_neg hj]
      constructor
      · exact Or.inl
      · rintro (h | ⟨t, hxt, hx⟩)
        · exact h
        · have hge : j ≤ x := by rw [hxt]; exact Nat.le_add_right j (i * t)
          omega

/-- One pass of the outer loop of `sieveOfEratosthenes` extends the cleared
set from «has a divisor `d ∈ [2, m)` with `d² ≤ x`» to the same with
`d ∈ [2, m+1)` — whether or not cell `m` is itself already cleared. -/
theorem eratosStep_inv (len m : Nat) (hm : 2 ≤ m) (buf : Nat → Bool)
    (hbuf : ∀ x, buf x = false ↔ x < len ∧ ∃ d, 2 ≤ d ∧ d < m ∧ d ∣ x ∧ d * d ≤ x) :
    ∀ x, eratosStep len buf m x = false ↔
      x < len ∧ ∃ d, 2 ≤ d ∧ d < m + 1 ∧ d ∣ x ∧ d * d ≤ x := by
  intro x
  unfold eratosStep
  have hmlen : len ≤ m * len := Nat.le_mul_of_pos_left len (by omega)
  by_cases hbm : buf m = true
  · rw [if_pos hbm,
      markMultiples_false len m len (m * m) buf x (by omega), hbuf x]
    constructor
    · rintro (⟨hxlen, d, hd2, hdm, hdvd, hdsq⟩ | ⟨t, hxt, hxlen⟩)
      · exact ⟨hxlen, d, hd2, by omega, hdvd, hdsq⟩
      · exact ⟨hxlen, m, hm, by omega, ⟨m + t, by rw [hxt]; ring⟩, by omega⟩
    · rintro ⟨hxlen, d, hd2, hdm1, hdvd, hdsq⟩
      by_cases hdm : d < m
      · exact Or.inl ⟨hxlen, d, hd2, hdm, hdvd, hdsq⟩
      · have hdm' : d = m := by omega
        subst hdm'
        obtain ⟨s, rfl⟩ := hdvd
        have hds : d ≤ s := Nat.le_of_mul_le_mul_left hdsq (by omega)
        refine Or.inr ⟨s - d, ?_, hxlen⟩
        rw [← Nat.mul_add]
        congr 1
        omega
  · rw [if_neg hbm, hbuf x]
    have hbmf : buf m = false := by simpa using hbm
    obtain ⟨hmlen', d', hd'2, hd'm, hd'dvd, hd'sq⟩ := (hbuf m).mp hbmf
    constructor
    · rintro ⟨hxlen, d, hd2, hdm, hdvd, hdsq⟩
      exact ⟨hxlen, d, hd2, by omega, hdvd, hdsq⟩
    · rintro ⟨hxlen, d, hd2, hdm1, hdvd, hdsq⟩
      by_cases hdm : d < m
      · exact ⟨hxlen, d, hd2, hdm, hdvd, hdsq⟩
      · have hdm' : d = m := by omega
        subst hdm'
        have hmm : d ≤ d * d := Nat.le_mul_of_pos_left d (by omega)
        exact ⟨hxlen, d', hd'2, by omega, dvd_trans hd'dvd hdvd, by omega⟩

/-- Folding the outer loop over `[m, m + cnt)` extends the divisor bound from
`m` to `m + cnt`. -/
theorem foldl_eratosStep_inv (len : Nat) :
    ∀ (cnt m : Nat) (buf : Nat → Bool), 2 ≤ m →
      (∀ x, buf x = false ↔ x < len ∧ ∃ d, 2 ≤ d ∧ d < m ∧ d ∣ x ∧ d * d ≤ x) →
      ∀ x, ((List.range' m cnt).foldl (eratosStep len) buf) x = false ↔
        x < len ∧ ∃ d, 2 ≤ d ∧ d < m + cnt ∧ d ∣ x ∧ d * d ≤ x
  | 0, m, buf, hm, hbuf, x => by
    rw [show List.range' m 0 = [] from rfl]
    exact hbuf x
  | cnt + 1, m, buf, hm, hbuf, x => by
    rw [List.range'_succ m cnt 1]
    rw [show m + (cnt + 1) = (m + 1) + cnt by omega]
    exact foldl_eratosStep_inv len cnt (m + 1) (eratosStep len buf m) (by omega)
      (eratosStep_inv len m hm buf hbuf) x

/-- The finished buffer of `sieveOfEratosthenes`: a cell is cleared exactly
when it is in range and has a nontrivial divisor whose square it dominates. -/
theorem eratosBuf_false (len : Nat) (x : Nat) :
    eratosBuf len x = false ↔
      x < len ∧ ∃ d, 2 ≤ d ∧ d < 2 + (len - 2) ∧ d ∣ x ∧ d * d ≤ x := by
  unfold eratosBuf
  exact foldl_eratosStep_inv len (len - 2) 2 (fun _ => true) le_rfl
    (fun x => by
      constructor
      · intro h
        exact absurd h (by simp)
      · rintro ⟨_, d, hd2, hdm, _, _⟩
        omega)
    x

/-- For `2 ≤ k ≤ ub`, cell `k` of the finished buffer survives exactly when
`k` is prime. -/
theorem eratosBuf_true_iff (ub k : Nat) (h2 : 2 ≤ k) (hk : k ≤ ub) :
    (eratosBuf (ub + 1) k = true) ↔ Nat.Prime k := by
  have hf := eratosBuf_false (ub + 1) k
  constructor
  · intro ht
    by_contra hnp
    have hp : (Nat.minFac k).Prime := Nat.minFac_prime (by omega)
    have hdvd : Nat.minFac k ∣ k := Nat.minFac_dvd k
    have hsq : Nat.minFac k * Nat.minFac k ≤ k := by
      have := Nat.minFac_sq_le_self (by omega : 0 < k) hnp
      rwa [pow_two] at this
    have hple : Nat.minFac k ≤ Nat.minFac k * Nat.minFac k :=
      Nat.le_mul_of_pos_left _ (by have := hp.two_le; omega)
    have hkf : eratosBuf (ub + 1) k = false :=
      hf.mpr ⟨by omega, Nat.minFac k, hp.two_le, by omega, hdvd, hsq⟩
    rw [ht] at hkf
    exact Bool.noConfusion hkf
  · intro hp
    cases hb : eratosBuf (ub + 1) k
    · exfalso
      obtain ⟨_, d, hd2, hdm, hdvd, hdsq⟩ := hf.mp hb
      rcases hp.eq_one_or_self_of_dvd d hdvd with rfl | rfl
      · omega
      · have := Nat.mul_le_mul_left d h2
        omega
    · rfl

/-- For `n ≥ 3`, `sieveOfEratosthenes` is the filter of the survivors. -/
theorem sieveOfEratosthenesUB_of_ge (n ub : Nat) (hn : 3 ≤ n) :
    sieveOfEratosthenesUB n ub =
      (List.range (ub + 1)).filter (fun k => decide (2 ≤ k) && eratosBuf (ub + 1) k) := by
  unfold sieveOfEratosthenesUB
  rw [if_neg (by omega), if_neg (by omega), if_neg (by omega)]

/-- Concrete evaluation at the pinned point `n = 4`: the full sieve returns
the primes up to `upperBound = 10` — four of them, not five. -/
theorem sieveE4_eval : sieveOfEratosthenesE 4 (eFor 4) = [2, 3, 5, 7] := by
  unfold sieveOfEratosthenesE
  rw [upperBoundOf_eq (eFor 4) 10 (by norm_num [eFor]) (by norm_num [eFor])]
  decide

/-- Concrete evaluation at `n = 4` of the segmented sieve (whose inner
full-sieve call receives `segmentSize = 4`, hence the same pinned bound). -/
theorem segE4_eval : segmentedSieveE 4 (eFor 4) (eFor 4) = [2, 3, 5, 7] := by
  unfold segmentedSieveE
  rw [upperBoundOf_eq (eFor 4) 10 (by norm_num [eFor]) (by norm_num [eFor])]
  unfold segmentedSieveUB
  rw [show Nat.sqrt 10 = 3 by rw [← sqrtN_eq]; decide]
  decide

/-- The wheel sieve's answer at `n = 4`. -/
theorem nthPrime4_eval : NthPrime 4 = 11 := by
  rw [nthPrime_eval, limit0For_eq 4 9 (by norm_num [eFor]) (by norm_num [eFor])]
  decide

/-- **C4, counterexample.**  At `n = 4` both list-returning strategies return
`[2, 3, 5, 7]`: length `4 ≠ n + 1` and last element `7 ≠ nth_prime(4) = 11`. -/
theorem c4_counterexample :
    sieveOfEratosthenesE 4 (eFor 4) = [2, 3, 5, 7] ∧
    segmentedSieveE 4 (eFor 4) (eFor 4) = [2, 3, 5, 7] ∧
    NthPrime 4 = 11 ∧
    (sieveOfEratosthenesE 4 (eFor 4)).length ≠ 4 + 1 ∧
    (segmentedSieveE 4 (eFor 4) (eFor 4)).getLast? ≠ some 11 := by
  refine ⟨sieveE4_eval, segE4_eval, nthPrime4_eval, ?_, ?_⟩
  · rw [sieveE4_eval]
    decide
  · rw [segE4_eval]
    decide

/-- **C4, amended.**  For every `n ≥ 3` and every integer `upperBound`, the
list returned by `sieveOfEratosthenes` is strictly ascending (hence without
duplicates) and its members are exactly the primes in `[2, upperBound]` — its
length is the number of such primes, not `n + 1`, and its last element is the
largest prime `≤ upperBound`, not `nth_prime(n)`, as the counterexample at
`n = 4` realises.  At the pinned point `n = 4` the segmented sieve returns the
same list as the full sieve. -/
theorem c4_amended (n ub : Nat) (hn : 3 ≤ n) :
    (sieveOfEratosthenesUB n ub).Pairwise (· < ·) ∧
    (∀ k, k ∈ sieveOfEratosthenesUB n ub ↔ 2 ≤ k ∧ k ≤ ub ∧ Nat.Prime k) ∧
    segmentedSieveE 4 (eFor 4) (eFor 4) = sieveOfEratosthenesE 4 (eFor 4) := by
  rw [sieveOfEratosthenesUB_of_ge n ub hn]
  refine ⟨(List.pairwise_lt_range (ub + 1)).sublist (List.filter_sublist _), ?_,
    by rw [sieveE4_eval, segE4_eval]⟩
  intro k
  rw [List.mem_filter, List.mem_range]
  constructor
  · rintro ⟨hklt, hpred⟩
    have h2 : 2 ≤ k := by
      rcases Bool.and_eq_true_iff.mp hpred with ⟨ha, _⟩
      exact of_decide_eq_true ha
    have hbuf : eratosBuf (ub + 1) k = true := (Bool.and_eq_true_iff.mp hpred).2
    exact ⟨h2, by omega, (eratosBuf_true_iff ub k h2 (by omega)).mp hbuf⟩
  · rintro ⟨h2, hub, hp⟩
    refine ⟨by omega, Bool.and_eq_true_iff.mpr ⟨decide_eq_true h2, ?_⟩⟩
    exact (eratosBuf_true_iff ub k h2 hub).mpr hp

/-- Concrete instance of the amended C4 at `n = 4`, `upperBound = 10`. -/
theorem c4_amended_witness :
    (sieveOfEratosthenesUB 4 10).Pairwise (· < ·) ∧
    (∀ k, k ∈ sieveOfEratosthenesUB 4 10 ↔ 2 ≤ k ∧ k ≤ 10 ∧ Nat.Prime k) ∧
    segmentedSieveE 4 (eFor 4) (eFor 4) = sieveOfEratosthenesE 4 (eFor 4) :=
  c4_amended 4 10 (by decide)

end SieveJS
